import Mathlib

/-!
Verification of the SHA-256 GF(2) boolean-circuit gadget library.

The repository builds SHA-256 (and 32-bit modular arithmetic) as a boolean
circuit over two gate kinds, XOR (`api.add` on GF(2)) and AND (`api.mul`).
Semantically every gadget is a pure function from input bits to output bits,
so the shallow embedding models a circuit `Variable` by its boolean value:
`api.constant 0/1` becomes `false/true`, `api.add` becomes `Bool.xor`,
`api.mul` becomes `Bool.and`, and `api.sub 1 x` becomes `Bool.not`.
A `Sha256Word = [Variable; 32]` becomes a length-32 `List Bool`,
index 0 the most significant bit, exactly as in the source.
-/

set_option maxHeartbeats 2000000
set_option maxRecDepth 100000

namespace Gf2

/-- Little-endian value of a list of bits: the head is the least significant bit. -/
def lval : List Bool → Nat
  | [] => 0
  | b :: t => b.toNat + 2 * lval t

/-- Big-endian value of a word (index 0 = most significant bit), the reading used
throughout the repository (`u32_to_bit` writes bit `31 - i` at index `i`). -/
def wordVal (w : List Bool) : Nat := lval w.reverse

/-! ### Embedding of `src/sha256_gf2/gf2_utils.rs` -/

/-- Embeds `Sha256Word = [Variable; 32]`: a big-endian list of 32 bits. -/
abbrev Word := List Bool

/-- Embeds `u32_to_bit`: parse a u32 into 32 bits, big-endian
(`api.constant ((value >> (31 - i)) & 1)` at index `i`). -/
def u32_to_bit (value : Nat) : Word :=
  (List.range 32).map (fun i => value.testBit (31 - i))

/-- Embeds `u64_to_bit`: parse a u64 into 64 bits, big-endian. -/
def u64_to_bit (value : Nat) : List Bool :=
  (List.range 64).map (fun i => value.testBit (63 - i))

/-- Embeds `rotate_right`: with `s = n - k`, the result is
`bits[s..] ++ bits[0..s]`.  Polymorphic like the source (it performs no api
call, only reindexing of the existing bit handles). -/
def rotate_right {α : Type} (bits : List α) (k : Nat) : List α :=
  bits.drop (bits.length - k) ++ bits.take (bits.length - k)

/-- Embeds `shift_right`: `k` fresh zero constants followed by `bits[0..n-k]`. -/
def shift_right (bits : Word) (k : Nat) : Word :=
  List.replicate k false ++ bits.take (bits.length - k)

/-- Embeds `xor` (per-index `api.add`, i.e. GF(2) addition = XOR). -/
def xor (a b : Word) : Word := List.zipWith (fun x y => Bool.xor x y) a b

/-- Embeds `and` (per-index `api.mul`, i.e. GF(2) multiplication = AND). -/
def and (a b : Word) : Word := List.zipWith (fun x y => x && y) a b

/-- Embeds `not` (per-index `api.sub 1 x`, which on GF(2) is negation). -/
def not (a : Word) : Word := a.map (fun x => !x)

/-- Embeds `ch`: `(x AND y) XOR (NOT x AND z)`. -/
def ch (x y z : Word) : Word :=
  let xy := and x y
  let not_x := not x
  let not_xz := and not_x z
  xor xy not_xz

/-- Embeds `maj`: `(x AND y) XOR (x AND z) XOR (y AND z)`. -/
def maj (x y z : Word) : Word :=
  let xy := and x y
  let xz := and x z
  let yz := and y z
  let tmp := xor xy xz
  xor tmp yz

/-- Embeds `lower_case_sigma0`: `ROTR(x,7) XOR ROTR(x,18) XOR SHR(x,3)`. -/
def lower_case_sigma0 (word : Word) : Word :=
  let rot7 := rotate_right word 7
  let rot18 := rotate_right word 18
  let shft3 := shift_right word 3
  xor (xor rot7 rot18) shft3

/-- Embeds `lower_case_sigma1`: `ROTR(x,17) XOR ROTR(x,19) XOR SHR(x,10)`. -/
def lower_case_sigma1 (word : Word) : Word :=
  let rot17 := rotate_right word 17
  let rot19 := rotate_right word 19
  let shft10 := shift_right word 10
  xor (xor rot17 rot19) shft10

/-- Embeds `capital_sigma0`: `ROTR(x,2) XOR ROTR(x,13) XOR ROTR(x,22)`. -/
def capital_sigma0 (x : Word) : Word :=
  xor (xor (rotate_right x 2) (rotate_right x 13)) (rotate_right x 22)

/-- Embeds `capital_sigma1`: `ROTR(x,6) XOR ROTR(x,11) XOR ROTR(x,25)`. -/
def capital_sigma1 (x : Word) : Word :=
  xor (xor (rotate_right x 6) (rotate_right x 11)) (rotate_right x 25)

/-- Little-endian core of `add_const`: the source loops `i = 31` down to `0`
(LSB to MSB) testing `(b >> (31 - i)) & 1`, i.e. the little-endian bits of
`b` in order, keeping a carry `ci`.  Bit `b = 1`: `p = ¬a`, sum `p ⊕ ci`,
carry `(ci ∧ p) ⊕ a`.  Bit `b = 0`: sum `a ⊕ ci`, carry `ci ∧ a`. -/
def add_const_core : List Bool → Nat → Bool → List Bool
  | [], _, _ => []
  | a :: t, b, ci =>
    if b % 2 = 1 then
      let p := Bool.xor a true
      (Bool.xor p ci) :: add_const_core t (b / 2) (Bool.xor (ci && p) a)
    else
      (Bool.xor a ci) :: add_const_core t (b / 2) (ci && a)

/-- Embeds `add_const`: ripple addition of a compile-time u32 constant. -/
def add_const (a : Word) (b : Nat) : Word :=
  (add_const_core a.reverse b false).reverse

/-- Embeds `brent_kung_adder_4_bits` (little-endian 4-bit slices plus carry-in):
generate/propagate, the closed-form 2-level prefix, final carries, sum. -/
def brent_kung_adder_4_bits (a b : List Bool) (carry_in : Bool) :
    List Bool × Bool :=
  let g : Nat → Bool := fun i => a.getD i false && b.getD i false
  let p : Nat → Bool := fun i => Bool.xor (a.getD i false) (b.getD i false)
  let p1g0 := p 1 && g 0
  let p0p1 := p 0 && p 1
  let p2p3 := p 2 && p 3
  let g10 := Bool.xor (g 1) p1g0
  let g20 := Bool.xor (g 2) (p 2 && g10)
  let g30 := Bool.xor (g 3) (p 3 && g20)
  let c0 := carry_in
  let c1 := Bool.xor (g 0) (p 0 && c0)
  let c2 := Bool.xor g10 (p0p1 && c0)
  let c3 := Bool.xor g20 (p0p1 && (p 2 && c0))
  let c4 := Bool.xor g30 ((p0p1 && p2p3) && c0)
  ([Bool.xor (p 0) c0, Bool.xor (p 1) c1, Bool.xor (p 2) c2, Bool.xor (p 3) c3], c4)

/-- Chaining of little-endian 4-bit blocks, carry-out into the next carry-in
(the `for i in 0..8` loop of `add_brentkung` / `add_hancarlson`). -/
def chain4 (blk : List Bool → List Bool → Bool → List Bool × Bool) :
    Nat → List Bool → List Bool → Bool → List Bool
  | 0, _, _, _ => []
  | n + 1, a, b, ci =>
    let r := blk (a.take 4) (b.take 4) ci
    r.1 ++ chain4 blk n (a.drop 4) (b.drop 4) r.2

/-- Embeds `add_brentkung`: reverse to little-endian, 8 serially chained
4-bit Brent-Kung blocks, reverse back. -/
def add_brentkung (a b : Word) : Word :=
  (chain4 brent_kung_adder_4_bits 8 a.reverse b.reverse false).reverse

/-- One gap-step of the serial Kogge-Stone prefix loop (`if i >= gap` branch). -/
def ks_step (gp : List Bool × List Bool) (gap : Nat) : List Bool × List Bool :=
  ((List.range 32).map fun i =>
      if gap ≤ i then
        Bool.xor (gp.1.getD i false) (gp.2.getD i false && gp.1.getD (i - gap) false)
      else gp.1.getD i false,
   (List.range 32).map fun i =>
      if gap ≤ i then gp.2.getD i false && gp.2.getD (i - gap) false
      else gp.2.getD i false)

/-- Embeds `add_koggestone_32_bits` (serial Kogge-Stone): reverse operands,
g/p, the `while gap < 32 { .. gap *= 2 }` loop (gaps 1,2,4,8,16), carries
`carry[i+1] = g_prefix[i] ⊕ (p_prefix[i] ∧ carry[0])` with `carry[0] = 0`,
sum `p[i] ⊕ carry[i]`, reverse back. -/
def add_koggestone_32_bits (a b : Word) : Word :=
  let ar := a.reverse
  let br := b.reverse
  let g := (List.range 32).map fun i => ar.getD i false && br.getD i false
  let p := (List.range 32).map fun i => Bool.xor (ar.getD i false) (br.getD i false)
  let gp := [1, 2, 4, 8, 16].foldl ks_step (g, p)
  let carry := (List.range 32).map fun i =>
    if i = 0 then false
    else Bool.xor (gp.1.getD (i - 1) false) (gp.2.getD (i - 1) false && false)
  ((List.range 32).map fun i => Bool.xor (p.getD i false) (carry.getD i false)).reverse

/-- Embeds `shift_left` (little-endian): `output[i] = input[i-shift]` for
`i ≥ shift`, else the zero constant; always 32 entries. -/
def shift_left (input : List Bool) (sh : Nat) : List Bool :=
  (List.range 32).map fun i => if sh ≤ i then input.getD (i - sh) false else false

/-- Embeds `prefix_step`: `G' = G ⊕ (P ∧ (G << s))`, `P' = P ∧ (P << s)`. -/
def prefix_step (g p : List Bool) (sh : Nat) : List Bool × List Bool :=
  (xor g (and p (shift_left g sh)), and p (shift_left p sh))

/-- Embeds `add_koggestone_32_bits_prallel`: reverse, p/g, the five uniform
doubling shifts 1,2,4,8,16 via `prefix_step`, carry `G << 1`, sum `p ⊕ carry`,
reverse back. -/
def add_koggestone_32_bits_prallel (a b : Word) : Word :=
  let p := xor a.reverse b.reverse
  let g := and a.reverse b.reverse
  let gp := [1, 2, 4, 8, 16].foldl (fun s sh => prefix_step s.1 s.2 sh) (g, p)
  let carry := shift_left gp.1 1
  (xor p carry).reverse

/-- One gap-step of the Han-Carlson even-index prefix loop
(`if i >= gap && i % 2 == 0`). -/
def hc_step (gp : List Bool × List Bool) (gap : Nat) : List Bool × List Bool :=
  ((List.range 32).map fun i =>
      if gap ≤ i ∧ i % 2 = 0 then
        Bool.xor (gp.1.getD i false) (gp.2.getD i false && gp.1.getD (i - gap) false)
      else gp.1.getD i false,
   (List.range 32).map fun i =>
      if gap ≤ i ∧ i % 2 = 0 then gp.2.getD i false && gp.2.getD (i - gap) false
      else gp.2.getD i false)

/-- The carry chain of `add_hancarlson_32_bits` (`for i in 1..=32`):
even `i - 1` takes the prefix-tree generate, odd `i - 1` computes locally
from the previous carry. -/
def hc_carry (g p gpre : List Bool) : Nat → Bool
  | 0 => false
  | i + 1 =>
    if i % 2 = 0 then gpre.getD i false
    else Bool.xor (g.getD i false) (p.getD i false && hc_carry g p gpre i)

/-- Embeds `add_hancarlson_32_bits`: reverse, g/p, even-index prefix tree
(gaps 1,2,4,8,16), the even/odd carry chain, sum `p[i] ⊕ carry[i]`, reverse. -/
def add_hancarlson_32_bits (a b : Word) : Word :=
  let ar := a.reverse
  let br := b.reverse
  let g := (List.range 32).map fun i => ar.getD i false && br.getD i false
  let p := (List.range 32).map fun i => Bool.xor (ar.getD i false) (br.getD i false)
  let gp := [1, 2, 4, 8, 16].foldl hc_step (g, p)
  ((List.range 32).map fun i => Bool.xor (p.getD i false) (hc_carry g p gp.1 i)).reverse

/-- Embeds `han_carlson_adder_4_bits` (the uncommented version): prefix tree
only on even indices; carries `c1 = g_prefix[0]`, `c2` local, `c3 =
g_prefix[2]`, `c4` local; note that `c1` and `c3` do not involve `carry_in`. -/
def han_carlson_adder_4_bits (a b : List Bool) (carry_in : Bool) :
    List Bool × Bool :=
  let g : Nat → Bool := fun i => a.getD i false && b.getD i false
  let p : Nat → Bool := fun i => Bool.xor (a.getD i false) (b.getD i false)
  let gpre2a := Bool.xor (g 2) (p 2 && g 1)
  let ppre2a := p 2 && p 1
  let gpre2 := Bool.xor gpre2a (ppre2a && g 0)
  let c0 := carry_in
  let c1 := g 0
  let c2 := Bool.xor (g 1) (p 1 && c1)
  let c3 := gpre2
  let c4 := Bool.xor (g 3) (p 3 && c3)
  ([Bool.xor (p 0) c0, Bool.xor (p 1) c1, Bool.xor (p 2) c2, Bool.xor (p 3) c3], c4)

/-- Embeds `add_hancarlson`: 8 serially chained `han_carlson_adder_4_bits`
blocks, carry-out into the next carry-in. -/
def add_hancarlson (a b : List Bool) : Word :=
  (chain4 han_carlson_adder_4_bits 8 a.reverse b.reverse false).reverse

/-- Embeds the `add` selector: the active choice in the source is
`add_koggestone_32_bits_prallel`. -/
def add (a b : Word) : Word := add_koggestone_32_bits_prallel a b

/-- Embeds `bit_add_with_carry`: the 1-bit full adder, sum `a ⊕ b ⊕ c` and
carry `ab ⊕ abc ⊕ abc ⊕ ac ⊕ bc` exactly as the gates are laid down. -/
def bit_add_with_carry (a b carry : Bool) : Bool × Bool :=
  let sum := Bool.xor (Bool.xor a b) carry
  let ab := a && b
  let ac := a && carry
  let bc := b && carry
  let abc := ab && carry
  (sum, Bool.xor (Bool.xor (Bool.xor (Bool.xor ab abc) abc) ac) bc)

/-- Little-endian core of `add_vanilla`: the source loops `i = 31` down to `0`
feeding the carry forward; the final carry is left in the loop variable. -/
def ripple_core : List Bool → List Bool → Bool → List Bool × Bool
  | a :: ta, b :: tb, c =>
    let r := bit_add_with_carry a b c
    let rest := ripple_core ta tb r.2
    (r.1 :: rest.1, rest.2)
  | _, _, c => ([], c)

/-- Embeds `add_vanilla`: the serial 1-bit full-adder chain. -/
def add_vanilla (a b : Word) : Word :=
  (ripple_core a.reverse b.reverse false).1.reverse

/-- The `while n_values_to_sum > 1` loop of `sum_all`: pairwise binary-tree
folding in place, carrying an unmatched last operand into slot `half`. -/
def sum_all_go : Nat → List Word → Nat → List Word
  | 0, vvs, _ => vvs
  | fuel + 1, vvs, n =>
    if 1 < n then
      let half := n / 2
      let vvs1 := (List.range vvs.length).map (fun i =>
        if i < half then add (vvs.getD i []) (vvs.getD (i + half) [])
        else vvs.getD i [])
      let vvs2 := if n % 2 ≠ 0 then vvs1.set half (vvs1.getD (n - 1) []) else vvs1
      sum_all_go fuel vvs2 ((n + 1) / 2)
    else vvs

def sum_all_loop (vvs : List Word) (n : Nat) : List Word := sum_all_go n vvs n

/-- Embeds `sum_all`: binary-tree summation; the final `vvs[0]` read is an
out-of-bounds index on the empty input, modelled as `Option`. -/
def sum_all (vs : List Word) : Option Word :=
  (sum_all_loop vs vs.length).get? 0

/-! ### Embedding of `add_csa3`
(identical in `src/ppa/wallace_bk_sum_chain.rs` and
`src/detailed_op/check_only_wallace.rs`) -/

/-- Embeds `add_csa3`: reverse to little-endian; `sum[i] = a[i] ⊕ b[i] ⊕ c[i]`,
`carry[i+1] = ab ⊕ bc ⊕ ac` with `carry[0]` the zero constant; the returned
carry word is `carry[0..32]` (the top majority bit is dropped); reverse back. -/
def add_csa3 (a b c : Word) : Word × Word :=
  let ar := a.reverse
  let br := b.reverse
  let cr := c.reverse
  let sum := (List.range 32).map fun i =>
    Bool.xor (Bool.xor (ar.getD i false) (br.getD i false)) (cr.getD i false)
  let carry := (List.range 32).map fun i =>
    if i = 0 then false
    else
      Bool.xor
        (Bool.xor (ar.getD (i - 1) false && br.getD (i - 1) false)
          (br.getD (i - 1) false && cr.getD (i - 1) false))
        (ar.getD (i - 1) false && cr.getD (i - 1) false)
  (sum.reverse, carry.reverse)

/-! ### Embedding of `src/sha256_gf2/gf2.rs` -/

/-- Embeds `SHA256_INIT_STATE`: initial values of H0..H7. -/
def SHA256_INIT_STATE : List Nat :=
  [0x6a09e667, 0xbb67ae85, 0x3c6ef372, 0xa54ff53a,
   0x510e527f, 0x9b05688c, 0x1f83d9ab, 0x5be0cd19]

/-- Embeds `SHA256_K`: the 64 round constants. -/
def SHA256_K : List Nat :=
  [1116352408, 1899447441, 3049323471, 3921009573, 961987163, 1508970993,
   2453635748, 2870763221, 3624381080, 310598401, 607225278, 1426881987,
   1925078388, 2162078206, 2614888103, 3248222580, 3835390401, 4022224774,
   264347078, 604807628, 770255983, 1249150122, 1555081692, 1996064986,
   2554220882, 2821834349, 2952996808, 3210313671, 3336571891, 3584528711,
   113926993, 338241895, 666307205, 773529912, 1294757372, 1396182291,
   1695183700, 1986661051, 2177026350, 2456956037, 2730485921, 2820302411,
   3259730800, 3345764771, 3516065817, 3600352804, 4094571909, 275423344,
   430227734, 506948616, 659060556, 883997877, 958139571, 1322822218,
   1537002063, 1747873779, 1955562222, 2024104815, 2227730452, 2361852424,
   2428436474, 2756734187, 3204031479, 3329325298]

/-- The 8-word working state `[Sha256Word; 8]` of the compression function. -/
abbrev States := Word × Word × Word × Word × Word × Word × Word × Word

/-- The body of the optimized (CSA/Wallace-tree) compression loop of
`sha256_compress`, one round: build the five inputs, the two first-stage
CSA3 collapses, two further CSA3 stages and a final `add` per output, then
rotate the working variables. -/
def compress_round (st : States) (wi : Word) (ki : Nat) : States :=
  let (a, b, c, d, e, f, g, h) := st
  let w_plus_k := add_const wi ki
  let cs1e := capital_sigma1 e
  let chefg := ch e f g
  let cs0a := capital_sigma0 a
  let majabc := maj a b c
  let s1 := add_csa3 h w_plus_k cs1e
  let s2 := add_csa3 chefg cs0a majabc
  let s3 := add_csa3 s1.1 s1.2 s2.1
  let s4 := add_csa3 s3.1 s3.2 s2.2
  let t2 := add s4.1 s4.2
  let s5a := add_csa3 d chefg s1.1
  let s5b := add_csa3 s1.2 s5a.1 s5a.2
  let t1 := add s5b.1 s5b.2
  (t2, a, b, c, t1, e, f, g)

/-- The message-schedule construction of `sha256_compress`:
`W[0..16]` from the 512-bit block, then 48 expansion steps
`W[i] = add(add(σ1(W[i-2]), W[i-7]), add(σ0(W[i-15]), W[i-16]))`. -/
def schedule_w (input : List Bool) : List Word :=
  (List.range 48).foldl
    (fun w _ =>
      w ++ [add (add (lower_case_sigma1 (w.getD (w.length - 2) []))
                  (w.getD (w.length - 7) []))
              (add (lower_case_sigma0 (w.getD (w.length - 15) []))
                  (w.getD (w.length - 16) []))])
    ((List.range 16).map fun i => (input.drop (32 * i)).take 32)

/-- Embeds `sha256_compress`: message schedule, 64 rounds of
`compress_round` over `W[i]`/`K[i]`, then the per-word state update
`state[j] = add(state[j], working[j])`. -/
def sha256_compress (st : States) (input : List Bool) : States :=
  let r := ((schedule_w input).zip SHA256_K).foldl
    (fun s wk => compress_round s wk.1 wk.2) st
  (add st.1 r.1, add st.2.1 r.2.1, add st.2.2.1 r.2.2.1,
   add st.2.2.2.1 r.2.2.2.1, add st.2.2.2.2.1 r.2.2.2.2.1,
   add st.2.2.2.2.2.1 r.2.2.2.2.2.1, add st.2.2.2.2.2.2.1 r.2.2.2.2.2.2.1,
   add st.2.2.2.2.2.2.2 r.2.2.2.2.2.2.2)

/-- Embeds the `SHA256GF2` struct: the append-only message buffer. -/
structure SHA256GF2 where
  data : List Bool

/-- Embeds `SHA256GF2::new`. -/
def SHA256GF2.new : SHA256GF2 := ⟨[]⟩

/-- Embeds `SHA256GF2::update`: append the given bits to the buffer. -/
def SHA256GF2.update (self : SHA256GF2) (d : List Bool) : SHA256GF2 :=
  ⟨self.data ++ d⟩

/-- The padding appended by `finalize` when the zero-run length
`448 - ((len + 1) % 512)` does not underflow:
`original ++ [1] ++ 0* ++ [len]_64`. -/
def padBits (l : List Bool) : List Bool :=
  l ++ [true] ++ List.replicate (448 - ((l.length + 1) % 512)) false
    ++ u64_to_bit l.length

/-- The initial hash state, `SHA256_INIT_STATE` parsed by `u32_to_bit`. -/
def init_state : States :=
  (u32_to_bit 0x6a09e667, u32_to_bit 0xbb67ae85, u32_to_bit 0x3c6ef372,
   u32_to_bit 0xa54ff53a, u32_to_bit 0x510e527f, u32_to_bit 0x9b05688c,
   u32_to_bit 0x1f83d9ab, u32_to_bit 0x5be0cd19)

/-- Fuel-driven worker for `chunks512`; structural recursion on the fuel so
that concrete instances reduce definitionally.  `l.length` is always enough
fuel, since each chunk consumes 512 elements. -/
def chunks512_go : Nat → List Bool → List (List Bool)
  | 0, _ => []
  | fuel + 1, l =>
    if 512 ≤ l.length then l.take 512 :: chunks512_go fuel (l.drop 512) else []

/-- Embeds `self.data.chunks_exact(512)`: the consecutive full 512-bit
chunks, any trailing partial chunk dropped. -/
def chunks512 (l : List Bool) : List (List Bool) := chunks512_go l.length l

/-- Digest extraction: `H[0] || H[1] || ... || H[7]`. -/
def digest_bits (st : States) : List Bool :=
  let (a, b, c, d, e, f, g, h) := st
  a ++ b ++ c ++ d ++ e ++ f ++ g ++ h

/-- Embeds `SHA256GF2::finalize`.  The source computes the zero-run length as
`448 - ((data_len + 1) % 512)` in `usize`; when `(data_len + 1) % 512 > 448`
this subtraction underflows (a panic in debug builds), so that fallible case
is modelled as `none`.  Otherwise the padding is pushed onto the engine's own
buffer (`&mut self`), every full 512-bit chunk is compressed, and the digest
is the concatenation of the 8 state words; the returned engine carries the
mutated (padded) buffer. -/
def SHA256GF2.finalize (self : SHA256GF2) : Option (List Bool × SHA256GF2) :=
  if (self.data.length + 1) % 512 ≤ 448 then
    let padded := padBits self.data
    let st := (chunks512 padded).foldl sha256_compress init_state
    some (digest_bits st, ⟨padded⟩)
  else none

/-! ### Word-level (numeric) model

The following functions compute, at the level of 32-bit values, what the
boolean gadgets compute at the level of bit lists; they are the vehicle for
the refinement proofs and for the `refinement_equivalence` comparison of the
CSA/Wallace-tree round with the spec's direct-sum round. -/

/-- Standard right-rotation of a 32-bit value, `(x >> k) | (x << (32-k))`
truncated to 32 bits. -/
def rotr32 (x k : Nat) : Nat := ((x >>> k) ||| (x <<< (32 - k))) % 2 ^ 32

/-- Bitwise complement within 32 bits. -/
def not32 (x : Nat) : Nat := (2 ^ 32 - 1) ^^^ x

/-- Numeric `Ch(x,y,z) = (x ∧ y) ⊕ (¬x ∧ z)`. -/
def chN (x y z : Nat) : Nat := (x &&& y) ^^^ (not32 x &&& z)

/-- Numeric `Maj(x,y,z) = (x ∧ y) ⊕ (x ∧ z) ⊕ (y ∧ z)`. -/
def majN (x y z : Nat) : Nat := ((x &&& y) ^^^ (x &&& z)) ^^^ (y &&& z)

/-- Numeric `σ0(x) = ROTR7 ⊕ ROTR18 ⊕ SHR3`. -/
def lsig0 (x : Nat) : Nat := (rotr32 x 7 ^^^ rotr32 x 18) ^^^ (x >>> 3)

/-- Numeric `σ1(x) = ROTR17 ⊕ ROTR19 ⊕ SHR10`. -/
def lsig1 (x : Nat) : Nat := (rotr32 x 17 ^^^ rotr32 x 19) ^^^ (x >>> 10)

/-- Numeric `Σ0(x) = ROTR2 ⊕ ROTR13 ⊕ ROTR22`. -/
def csig0 (x : Nat) : Nat := (rotr32 x 2 ^^^ rotr32 x 13) ^^^ rotr32 x 22

/-- Numeric `Σ1(x) = ROTR6 ⊕ ROTR11 ⊕ ROTR25`. -/
def csig1 (x : Nat) : Nat := (rotr32 x 6 ^^^ rotr32 x 11) ^^^ rotr32 x 25

/-- The 8 working values at the numeric level. -/
abbrev NStates := Nat × Nat × Nat × Nat × Nat × Nat × Nat × Nat

/-- The spec's direct-sum formulation of one compression round:
`T1 = h + Σ1(e) + Ch(e,f,g) + K[i] + W[i]`, `T2 = Σ0(a) + Maj(a,b,c)`,
then `h←g, g←f, f←e, e←d+T1, d←c, c←b, b←a, a←T1+T2`, all mod `2^32`. -/
def round_direct (st : NStates) (wi ki : Nat) : NStates :=
  let (a, b, c, d, e, f, g, h) := st
  let t1 := (h + csig1 e + chN e f g + ki + wi) % 2 ^ 32
  let t2 := (csig0 a + majN a b c) % 2 ^ 32
  ((t1 + t2) % 2 ^ 32, a, b, c, (d + t1) % 2 ^ 32, e, f, g)

/-- Numeric mirror of `schedule_w`: `s0 = (σ1(W[i-2]) + W[i-7]) mod 2^32`,
`s1 = (σ0(W[i-15]) + W[i-16]) mod 2^32`, `W[i] = (s0 + s1) mod 2^32`. -/
def schedule_w_vals (input : List Bool) : List Nat :=
  (List.range 48).foldl
    (fun w _ =>
      w ++ [((lsig1 (w.getD (w.length - 2) 0) + w.getD (w.length - 7) 0) % 2 ^ 32
          + (lsig0 (w.getD (w.length - 15) 0) + w.getD (w.length - 16) 0) % 2 ^ 32)
          % 2 ^ 32])
    ((List.range 16).map fun i => wordVal ((input.drop (32 * i)).take 32))

/-- Numeric mirror of `sha256_compress`. -/
def compressN (st : NStates) (input : List Bool) : NStates :=
  let r := ((schedule_w_vals input).zip SHA256_K).foldl
    (fun s wk => round_direct s wk.1 wk.2) st
  ((st.1 + r.1) % 2 ^ 32, (st.2.1 + r.2.1) % 2 ^ 32,
   (st.2.2.1 + r.2.2.1) % 2 ^ 32, (st.2.2.2.1 + r.2.2.2.1) % 2 ^ 32,
   (st.2.2.2.2.1 + r.2.2.2.2.1) % 2 ^ 32, (st.2.2.2.2.2.1 + r.2.2.2.2.2.1) % 2 ^ 32,
   (st.2.2.2.2.2.2.1 + r.2.2.2.2.2.2.1) % 2 ^ 32,
   (st.2.2.2.2.2.2.2 + r.2.2.2.2.2.2.2) % 2 ^ 32)

/-- Numeric initial state. -/
def init_state_vals : NStates :=
  (0x6a09e667, 0xbb67ae85, 0x3c6ef372, 0xa54ff53a,
   0x510e527f, 0x9b05688c, 0x1f83d9ab, 0x5be0cd19)

/-- Numeric mirror of the hashing part of `finalize`: the 8 digest-word
values of a message (assuming the zero-run length does not underflow). -/
def finalize_vals (msg : List Bool) : List Nat :=
  let st := (chunks512 (padBits msg)).foldl compressN init_state_vals
  [st.1, st.2.1, st.2.2.1, st.2.2.2.1, st.2.2.2.2.1, st.2.2.2.2.2.1,
   st.2.2.2.2.2.2.1, st.2.2.2.2.2.2.2]

/-- The word values of the 8 working-state words. -/
def val8 (st : States) : NStates :=
  (wordVal st.1, wordVal st.2.1, wordVal st.2.2.1, wordVal st.2.2.2.1,
   wordVal st.2.2.2.2.1, wordVal st.2.2.2.2.2.1, wordVal st.2.2.2.2.2.2.1,
   wordVal st.2.2.2.2.2.2.2)

/-- The bit words of 8 numeric state values. -/
def map8 (s : NStates) : States :=
  (u32_to_bit s.1, u32_to_bit s.2.1, u32_to_bit s.2.2.1, u32_to_bit s.2.2.2.1,
   u32_to_bit s.2.2.2.2.1, u32_to_bit s.2.2.2.2.2.1, u32_to_bit s.2.2.2.2.2.2.1,
   u32_to_bit s.2.2.2.2.2.2.2)

/-- All 8 numeric state components fit in 32 bits. -/
def bounds8 (s : NStates) : Prop :=
  s.1 < 2 ^ 32 ∧ s.2.1 < 2 ^ 32 ∧ s.2.2.1 < 2 ^ 32 ∧ s.2.2.2.1 < 2 ^ 32
    ∧ s.2.2.2.2.1 < 2 ^ 32 ∧ s.2.2.2.2.2.1 < 2 ^ 32
    ∧ s.2.2.2.2.2.2.1 < 2 ^ 32 ∧ s.2.2.2.2.2.2.2 < 2 ^ 32

/-- The 24-bit message "abc": the big-endian bits of 0x616263. -/
def abc_bits : List Bool :=
  (List.range 24).map (fun i => Nat.testBit 0x616263 (23 - i))

/-! ### Proof machinery: carries, bit-function values, prefix windows -/

/-- The ripple carry sequence of binary addition (as boolean functions):
`c 0 = 0`, `c (i+1) = maj(a i, b i, c i) = g i ⊕ (p i ∧ c i)`. -/
def carries (a b : Nat → Bool) : Nat → Bool
  | 0 => false
  | i + 1 =>
    Bool.xor (a i && b i) (Bool.xor (a i) (b i) && carries a b i)

/-- Little-endian value of the first `n` bits of a bit function. -/
def valF (f : Nat → Bool) : Nat → Nat
  | 0 => 0
  | n + 1 => valF f n + 2 ^ n * (f n).toNat

/-- Sum of the first `n` values of a sequence. -/
def sumF (f : Nat → Nat) : Nat → Nat
  | 0 => 0
  | n + 1 => sumF f n + f n

/-- Window generate: the XOR-combine `(g,p)` fold over the `n` bit positions
`i, i-1, ..., i-n+1` (the carry-operator value of that window). -/
def wg (g p : Nat → Bool) : Nat → Nat → Bool
  | _, 0 => false
  | i, n + 1 => Bool.xor (g i) (p i && wg g p (i - 1) n)

/-- Window propagate over the same window. -/
def wp (g p : Nat → Bool) : Nat → Nat → Bool
  | _, 0 => true
  | i, n + 1 => p i && wp g p (i - 1) n

/-! ### Value and indexing lemmas -/

@[simp] theorem lval_nil : lval [] = 0 := rfl

@[simp] theorem lval_cons (b : Bool) (t : List Bool) :
    lval (b :: t) = b.toNat + 2 * lval t := rfl

theorem lval_lt (l : List Bool) : lval l < 2 ^ l.length := by
  induction l with
  | nil => simp [lval]
  | cons b t ih =>
    have hb : b.toNat ≤ 1 := Bool.toNat_le b
    simp only [lval_cons, List.length_cons, pow_succ]
    omega

theorem lval_append (l m : List Bool) :
    lval (l ++ m) = lval l + 2 ^ l.length * lval m := by
  induction l with
  | nil => simp
  | cons b t ih =>
    simp only [List.cons_append, lval_cons, ih, List.length_cons, pow_succ]
    ring

theorem testBit_lval (l : List Bool) (i : Nat) :
    (lval l).testBit i = l.getD i false := by
  induction l generalizing i with
  | nil => simp [lval, Nat.zero_testBit]
  | cons b t ih =>
    cases i with
    | zero =>
      simp only [lval_cons, Nat.testBit_zero, List.getD_cons_zero]
      cases b <;> simp [Nat.add_mul_mod_self_left]
    | succ j =>
      have hdiv : (b.toNat + 2 * lval t) / 2 = lval t := by
        have hb : b.toNat ≤ 1 := Bool.toNat_le b
        omega
      simp only [lval_cons, Nat.testBit_succ, hdiv, List.getD_cons_succ]
      exact ih j

theorem wordVal_lt (w : List Bool) : wordVal w < 2 ^ w.length := by
  have := lval_lt w.reverse
  simpa [wordVal] using this

theorem testBit_wordVal (w : List Bool) (i : Nat) :
    (wordVal w).testBit i = w.reverse.getD i false := testBit_lval _ _

theorem lval_inj {l m : List Bool} (hlen : l.length = m.length)
    (hval : lval l = lval m) : l = m := by
  induction l generalizing m with
  | nil => cases m with
    | nil => rfl
    | cons b t => simp at hlen
  | cons b t ih =>
    cases m with
    | nil => simp at hlen
    | cons c s =>
      have hb : b = c := by
        have := congrArg (fun n => n % 2) hval
        simp only [lval_cons] at this
        cases b <;> cases c <;> simp_all <;> omega
      subst hb
      have ht : lval t = lval s := by
        simp only [lval_cons] at hval
        omega
      simp only [List.length_cons] at hlen
      exact congrArg (b :: ·) (ih (by omega) ht)

/-! ### `getD` toolkit -/

theorem getD_range_map {α : Type} (f : Nat → α) (n i : Nat) (d : α) :
    (((List.range n).map f).getD i d) = if i < n then f i else d := by
  by_cases h : i < n
  · simp [List.getD_eq_getElem?_getD, List.getElem?_map, List.getElem?_range h, h]
  · have : n ≤ i := Nat.le_of_not_lt h
    rw [List.getD_eq_getElem?_getD, List.getElem?_eq_none (by simpa using this)]
    simp [h]

theorem getD_zipWith {α β γ : Type} (f : α → β → γ) (a : List α) (b : List β)
    (i : Nat) (da : α) (db : β) (d : γ) (ha : i < a.length) (hb : i < b.length) :
    (List.zipWith f a b).getD i d = f (a.getD i da) (b.getD i db) := by
  simp [List.getD_eq_getElem?_getD, List.getElem?_zipWith,
    List.getElem?_eq_getElem ha, List.getElem?_eq_getElem hb]

theorem getD_of_length_le {α : Type} (l : List α) (i : Nat) (d : α)
    (h : l.length ≤ i) : l.getD i d = d := by
  rw [List.getD_eq_getElem?_getD, List.getElem?_eq_none h]
  rfl

theorem getD_append_left {α : Type} (l m : List α) (i : Nat) (d : α)
    (h : i < l.length) : (l ++ m).getD i d = l.getD i d := by
  simp [List.getD_eq_getElem?_getD, List.getElem?_append_left h]

theorem getD_append_right {α : Type} (l m : List α) (i : Nat) (d : α)
    (h : l.length ≤ i) : (l ++ m).getD i d = m.getD (i - l.length) d := by
  simp [List.getD_eq_getElem?_getD, List.getElem?_append_right h]

theorem getD_replicate {α : Type} (n i : Nat) (a d : α) :
    (List.replicate n a).getD i d = if i < n then a else d := by
  by_cases h : i < n
  · simp [List.getD_eq_getElem?_getD, List.getElem?_replicate, h]
  · rw [getD_of_length_le] <;> simp [h, Nat.le_of_not_lt h]

theorem getD_take {α : Type} (l : List α) (n i : Nat) (d : α) (h : i < n) :
    (l.take n).getD i d = l.getD i d := by
  simp [List.getD_eq_getElem?_getD, List.getElem?_take_of_lt h]

theorem getD_reverse {α : Type} (l : List α) (i : Nat) (d : α)
    (h : i < l.length) :
    l.reverse.getD i d = l.getD (l.length - 1 - i) d := by
  have h' : l.length - 1 - i < l.length := by omega
  rw [List.getD_eq_getElem?_getD, List.getD_eq_getElem?_getD,
    List.getElem?_eq_getElem (by simpa using h), List.getElem?_eq_getElem h']
  simp [List.getElem_reverse]

theorem length_u32_to_bit (v : Nat) : (u32_to_bit v).length = 32 := by
  simp [u32_to_bit]

theorem getD_u32_to_bit (v i : Nat) :
    (u32_to_bit v).getD i false =
      if i < 32 then v.testBit (31 - i) else false := by
  rw [u32_to_bit, getD_range_map]

theorem getD_reverse_u32_to_bit (v i : Nat) :
    (u32_to_bit v).reverse.getD i false =
      if i < 32 then v.testBit i else false := by
  by_cases h : i < 32
  · rw [getD_reverse _ _ _ (by rw [length_u32_to_bit]; omega)]
    rw [length_u32_to_bit, getD_u32_to_bit]
    have h1 : 32 - 1 - i < 32 := by omega
    have h2 : 31 - (32 - 1 - i) = i := by omega
    simp [h, h1, h2]
  · rw [getD_of_length_le _ _ _ (by simp [length_u32_to_bit]; omega)]
    simp [h]

theorem wordVal_u32_to_bit (v : Nat) : wordVal (u32_to_bit v) = v % 2 ^ 32 := by
  apply Nat.eq_of_testBit_eq
  intro i
  rw [testBit_wordVal, getD_reverse_u32_to_bit, Nat.testBit_mod_two_pow]
  by_cases h : i < 32 <;> simp [h]

theorem wordVal_inj {v w : List Bool} (hlen : v.length = w.length)
    (hval : wordVal v = wordVal w) : v = w := by
  have h := lval_inj (l := v.reverse) (m := w.reverse) (by simp [hlen]) hval
  exact List.reverse_inj.mp h

theorem u32_to_bit_wordVal {w : Word} (h : w.length = 32) :
    u32_to_bit (wordVal w) = w := by
  apply wordVal_inj (by rw [length_u32_to_bit, h])
  rw [wordVal_u32_to_bit, Nat.mod_eq_of_lt]
  have hlt := wordVal_lt w
  rw [h] at hlt
  exact hlt

theorem valF_lt (f : Nat → Bool) (n : Nat) : valF f n < 2 ^ n := by
  induction n with
  | zero => simp [valF]
  | succ n ih =>
    have hp : (0 : Nat) < 2 ^ n := Nat.two_pow_pos n
    have hf : (f n).toNat ≤ 1 := Bool.toNat_le _
    simp only [valF, pow_succ]
    nlinarith

theorem lval_range_map (f : Nat → Bool) (n : Nat) :
    lval ((List.range n).map f) = valF f n := by
  induction n with
  | zero => simp [valF]
  | succ n ih =>
    rw [List.range_succ, List.map_append, lval_append]
    simp [ih, valF, lval, Nat.mul_comm]

theorem eq_range_map_getD {α : Type} (l : List α) (d : α) :
    l = (List.range l.length).map (fun i => l.getD i d) := by
  apply List.ext_getElem (by simp)
  intro i h1 h2
  simp [List.getD_eq_getElem?_getD, List.getElem?_eq_getElem h1]

theorem lval_eq_valF (l : List Bool) :
    lval l = valF (fun i => l.getD i false) l.length := by
  conv_lhs => rw [eq_range_map_getD l false]
  rw [lval_range_map]

theorem valF_congr {f g : Nat → Bool} {n : Nat}
    (h : ∀ i, i < n → f i = g i) : valF f n = valF g n := by
  induction n with
  | zero => rfl
  | succ n ih =>
    simp only [valF, ih (fun i hi => h i (by omega)), h n (by omega)]

/-- Correctness of the ripple-carry recurrence: summing bitwise with
`s i = a i ⊕ b i ⊕ c i` and the majority carry accounts exactly for
`valF a n + valF b n`. -/
theorem ripple_value (a b : Nat → Bool) (n : Nat) :
    valF (fun i => Bool.xor (Bool.xor (a i) (b i)) (carries a b i)) n
      + 2 ^ n * (carries a b n).toNat = valF a n + valF b n := by
  induction n with
  | zero => simp [valF, carries]
  | succ n ih =>
    have hp : (0 : Nat) < 2 ^ n := Nat.two_pow_pos n
    simp only [valF, pow_succ, carries]
    cases ha : a n <;> cases hb : b n <;> cases hc : carries a b n <;>
      simp only [ha, hb, hc, Bool.false_and, Bool.true_and, Bool.and_false,
        Bool.and_true, Bool.false_xor, Bool.xor_false, Bool.true_xor,
        Bool.xor_true, Bool.not_true, Bool.not_false, Bool.toNat_true,
        Bool.toNat_false] at ih ⊢ <;> omega

theorem wp_split (g p : Nat → Bool) (m n i : Nat) :
    wp g p i (m + n) = (wp g p i m && wp g p (i - m) n) := by
  induction m generalizing i with
  | zero => simp [wp]
  | succ m ih =>
    have h1 : m + 1 + n = (m + n) + 1 := by omega
    have h2 : i - 1 - m = i - (m + 1) := by omega
    rw [h1]
    show (p i && wp g p (i - 1) (m + n)) = _
    rw [ih (i - 1), h2, ← Bool.and_assoc]
    rfl

theorem wg_split (g p : Nat → Bool) (m n i : Nat) :
    wg g p i (m + n) =
      Bool.xor (wg g p i m) (wp g p i m && wg g p (i - m) n) := by
  induction m generalizing i with
  | zero => simp [wg, wp]
  | succ m ih =>
    have h1 : m + 1 + n = (m + n) + 1 := by omega
    have h2 : i - 1 - m = i - (m + 1) := by omega
    rw [h1]
    show Bool.xor (g i) (p i && wg g p (i - 1) (m + n)) = _
    rw [ih (i - 1), h2, Bool.and_xor_distrib_left, ← Bool.xor_assoc,
      ← Bool.and_assoc]
    rfl

/-- The full window generate (window `[0..i]`) is exactly the ripple carry
into position `i + 1`. -/
theorem wg_full (a b : Nat → Bool) (i : Nat) :
    wg (fun j => a j && b j) (fun j => Bool.xor (a j) (b j)) i (i + 1)
      = carries a b (i + 1) := by
  induction i with
  | zero => simp [wg, carries]
  | succ i ih =>
    show Bool.xor _ (_ && wg _ _ (i + 1 - 1) (i + 1)) = _
    rw [Nat.add_sub_cancel, ih]
    rfl

theorem bit_add_with_carry_eq (a b c : Bool) :
    bit_add_with_carry a b c =
      (Bool.xor (Bool.xor a b) c, Bool.xor (a && b) (Bool.xor a b && c)) := by
  cases a <;> cases b <;> cases c <;> rfl

theorem full_adder_value (x y c : Bool) :
    (Bool.xor (Bool.xor x y) c).toNat
      + 2 * (Bool.xor (x && y) (Bool.xor x y && c)).toNat
      = x.toNat + y.toNat + c.toNat := by
  cases x <;> cases y <;> cases c <;> rfl

theorem ripple_core_length (la lb : List Bool) (c : Bool) :
    (ripple_core la lb c).1.length = min la.length lb.length := by
  induction la generalizing lb c with
  | nil => cases lb <;> simp [ripple_core]
  | cons x ta ih =>
    cases lb with
    | nil => simp [ripple_core]
    | cons y tb => simp [ripple_core, ih, Nat.succ_min_succ]

theorem ripple_core_spec (la : List Bool) : ∀ (lb : List Bool) (c : Bool),
    la.length = lb.length →
    lval (ripple_core la lb c).1
        + 2 ^ la.length * ((ripple_core la lb c).2).toNat
      = lval la + lval lb + c.toNat := by
  induction la with
  | nil =>
    intro lb c hlen
    cases lb with
    | nil => simp [ripple_core]
    | cons y tb => simp at hlen
  | cons x ta ih =>
    intro lb c hlen
    cases lb with
    | nil => simp at hlen
    | cons y tb =>
      simp only [List.length_cons] at hlen
      have hlen' : ta.length = tb.length := by omega
      have hrec := ih tb (Bool.xor (x && y) (Bool.xor x y && c)) hlen'
      have hfull := full_adder_value x y c
      have hshape : ripple_core (x :: ta) (y :: tb) c
          = (Bool.xor (Bool.xor x y) c
              :: (ripple_core ta tb (Bool.xor (x && y) (Bool.xor x y && c))).1,
             (ripple_core ta tb (Bool.xor (x && y) (Bool.xor x y && c))).2) := by
        simp [ripple_core, bit_add_with_carry_eq]
      rw [hshape]
      simp only [lval_cons, List.length_cons]
      have hmul : (2 : Nat) ^ (ta.length + 1)
            * ((ripple_core ta tb (Bool.xor (x && y) (Bool.xor x y && c))).2).toNat
          = 2 * (2 ^ ta.length
            * ((ripple_core ta tb (Bool.xor (x && y) (Bool.xor x y && c))).2).toNat) := by
        ring
      rw [hmul]
      omega

theorem u32_to_bit_mod (v : Nat) : u32_to_bit (v % 2 ^ 32) = u32_to_bit v := by
  apply List.ext_getElem (by simp [u32_to_bit])
  intro i h1 h2
  simp only [u32_to_bit, List.getElem_map, List.getElem_range]
  rw [Nat.testBit_mod_two_pow]
  have h31 : 31 - i < 32 := by omega
  simp [h31]

/-- A length-32 word with the right value is the `u32_to_bit` image. -/
theorem eq_u32_of_val {w : Word} {v : Nat} (hl : w.length = 32)
    (hv : wordVal w = v % 2 ^ 32) : w = u32_to_bit v := by
  rw [← u32_to_bit_wordVal hl, hv, u32_to_bit_mod]

/-- Correctness of `add_vanilla`: the ripple chain computes
`(a + b) mod 2^32`. -/
theorem add_vanilla_spec (a b : Word) (ha : a.length = 32)
    (hb : b.length = 32) :
    add_vanilla a b = u32_to_bit ((wordVal a + wordVal b) % 2 ^ 32) := by
  have hra : a.reverse.length = 32 := by simp [ha]
  have hrb : b.reverse.length = 32 := by simp [hb]
  have hspec := ripple_core_spec a.reverse b.reverse false (by rw [hra, hrb])
  have hlen : (ripple_core a.reverse b.reverse false).1.length = 32 := by
    rw [ripple_core_length, hra, hrb]
    simp
  apply eq_u32_of_val
  · simp [add_vanilla, hlen]
  · have hlt := lval_lt (ripple_core a.reverse b.reverse false).1
    rw [hlen] at hlt
    rw [hra, Bool.toNat_false] at hspec
    have hv : wordVal (add_vanilla a b)
        = lval (ripple_core a.reverse b.reverse false).1 := by
      unfold add_vanilla wordVal
      rw [List.reverse_reverse]
    rw [hv, wordVal, wordVal]
    omega

theorem wg_one (g p : Nat → Bool) (i : Nat) : wg g p i 1 = g i := by
  simp [wg]

theorem wp_one (g p : Nat → Bool) (i : Nat) : wp g p i 1 = p i := by
  simp [wp]

theorem ks_step_fst_getD (gp : List Bool × List Bool) (gap i : Nat)
    (h : i < 32) :
    (ks_step gp gap).1.getD i false =
      if gap ≤ i then
        Bool.xor (gp.1.getD i false)
          (gp.2.getD i false && gp.1.getD (i - gap) false)
      else gp.1.getD i false := by
  simp only [ks_step]
  rw [getD_range_map]
  simp [h]

theorem ks_step_snd_getD (gp : List Bool × List Bool) (gap i : Nat)
    (h : i < 32) :
    (ks_step gp gap).2.getD i false =
      if gap ≤ i then gp.2.getD i false && gp.2.getD (i - gap) false
      else gp.2.getD i false := by
  simp only [ks_step]
  rw [getD_range_map]
  simp [h]

/-- One serial Kogge-Stone gap-step doubles the `(g,p)` window
(clipped at bit 0). -/
theorem ks_step_inv (g p : Nat → Bool) (gp : List Bool × List Bool) (m n : Nat)
    (hn : n = 2 * m)
    (hG : ∀ i, i < 32 → gp.1.getD i false = wg g p i (min m (i + 1)))
    (hP : ∀ i, i < 32 → gp.2.getD i false = wp g p i (min m (i + 1))) :
    (∀ i, i < 32 →
        (ks_step gp m).1.getD i false = wg g p i (min n (i + 1)))
    ∧ (∀ i, i < 32 →
        (ks_step gp m).2.getD i false = wp g p i (min n (i + 1))) := by
  subst hn
  constructor
  · intro i hi
    rw [ks_step_fst_getD gp m i hi]
    by_cases hm : m ≤ i
    · have him : i - m < 32 := by omega
      rw [if_pos hm, hG i hi, hP i hi, hG (i - m) him]
      have h1 : min m (i + 1) = m := by omega
      have h2 : min (2 * m) (i + 1) = m + min m (i - m + 1) := by omega
      rw [h1, h2, wg_split]
    · rw [if_neg hm, hG i hi]
      have h1 : min m (i + 1) = min (2 * m) (i + 1) := by omega
      rw [h1]
  · intro i hi
    rw [ks_step_snd_getD gp m i hi]
    by_cases hm : m ≤ i
    · have him : i - m < 32 := by omega
      rw [if_pos hm, hP i hi, hP (i - m) him]
      have h1 : min m (i + 1) = m := by omega
      have h2 : min (2 * m) (i + 1) = m + min m (i - m + 1) := by omega
      rw [h1, h2, wp_split]
    · rw [if_neg hm, hP i hi]
      have h1 : min m (i + 1) = min (2 * m) (i + 1) := by omega
      rw [h1]

/-- After the five gap-steps 1,2,4,8,16, every position of the serial
Kogge-Stone generate vector holds the full-window generate. -/
theorem ks_prefix_full (g p : Nat → Bool) (G0 P0 : List Bool)
    (hG : ∀ i, i < 32 → G0.getD i false = g i)
    (hP : ∀ i, i < 32 → P0.getD i false = p i) :
    ∀ i, i < 32 →
      ([1, 2, 4, 8, 16].foldl ks_step (G0, P0)).1.getD i false
        = wg g p i (i + 1) := by
  have h1g : ∀ i, i < 32 → (G0, P0).1.getD i false = wg g p i (min 1 (i + 1)) := by
    intro i hi
    have hm : min 1 (i + 1) = 1 := by omega
    rw [hm, wg_one]
    exact hG i hi
  have h1p : ∀ i, i < 32 → (G0, P0).2.getD i false = wp g p i (min 1 (i + 1)) := by
    intro i hi
    have hm : min 1 (i + 1) = 1 := by omega
    rw [hm, wp_one]
    exact hP i hi
  have s1 := ks_step_inv g p (G0, P0) 1 2 (by norm_num) h1g h1p
  have s2 := ks_step_inv g p _ 2 4 (by norm_num) s1.1 s1.2
  have s4 := ks_step_inv g p _ 4 8 (by norm_num) s2.1 s2.2
  have s8 := ks_step_inv g p _ 8 16 (by norm_num) s4.1 s4.2
  have s16 := ks_step_inv g p _ 16 32 (by norm_num) s8.1 s8.2
  intro i hi
  have hmin : min 32 (i + 1) = i + 1 := by omega
  have h := s16.1 i hi
  rw [hmin] at h
  simpa [List.foldl] using h

/-- A length-32 little-endian bit list whose entries are the ripple sum bits
of `aF + bF` has value `(valF aF 32 + valF bF 32) mod 2^32`. -/
theorem sum_bits_value (aF bF : Nat → Bool) (s : List Bool) (hs : s.length = 32)
    (hbit : ∀ i, i < 32 →
      s.getD i false = Bool.xor (Bool.xor (aF i) (bF i)) (carries aF bF i)) :
    lval s = (valF aF 32 + valF bF 32) % 2 ^ 32 := by
  have h1 : lval s = valF (fun i => s.getD i false) 32 := by
    rw [lval_eq_valF, hs]
  have h2 : valF (fun i => s.getD i false) 32
      = valF (fun i => Bool.xor (Bool.xor (aF i) (bF i)) (carries aF bF i)) 32 :=
    valF_congr (fun i hi => hbit i hi)
  have h3 := ripple_value aF bF 32
  have h4 := valF_lt (fun i => Bool.xor (Bool.xor (aF i) (bF i)) (carries aF bF i)) 32
  rw [h1, h2]
  omega

/-- Wrapper: a big-endian adder result whose little-endian core bits are the
ripple sum bits of the reversed operands equals `u32_to_bit ((a+b) mod 2^32)`. -/
theorem be_result_spec (a b : Word) (ha : a.length = 32) (hb : b.length = 32)
    (s : List Bool) (hs : s.length = 32)
    (hbit : ∀ i, i < 32 →
      s.getD i false
        = Bool.xor (Bool.xor (a.reverse.getD i false) (b.reverse.getD i false))
            (carries (fun j => a.reverse.getD j false)
              (fun j => b.reverse.getD j false) i)) :
    s.reverse = u32_to_bit ((wordVal a + wordVal b) % 2 ^ 32) := by
  have hv := sum_bits_value _ _ s hs hbit
  have hva : wordVal a = valF (fun j => a.reverse.getD j false) 32 := by
    rw [wordVal, lval_eq_valF]
    simp [ha]
  have hvb : wordVal b = valF (fun j => b.reverse.getD j false) 32 := by
    rw [wordVal, lval_eq_valF]
    simp [hb]
  apply eq_u32_of_val (by simp [hs])
  have hrr : wordVal s.reverse = lval s := by
    rw [wordVal, List.reverse_reverse]
  rw [hrr, hva, hvb, hv]
  omega

/-- Correctness of the serial Kogge-Stone adder. -/
theorem add_koggestone_32_bits_spec (a b : Word) (ha : a.length = 32)
    (hb : b.length = 32) :
    add_koggestone_32_bits a b
      = u32_to_bit ((wordVal a + wordVal b) % 2 ^ 32) := by
  simp only [add_koggestone_32_bits]
  apply be_result_spec a b ha hb _ (by simp)
  intro i hi
  rw [getD_range_map]
  rw [if_pos hi, getD_range_map, getD_range_map, if_pos hi, if_pos hi]
  have hfull := ks_prefix_full
    (fun j => a.reverse.getD j false && b.reverse.getD j false)
    (fun j => Bool.xor (a.reverse.getD j false) (b.reverse.getD j false))
    ((List.range 32).map fun j => a.reverse.getD j false && b.reverse.getD j false)
    ((List.range 32).map fun j =>
      Bool.xor (a.reverse.getD j false) (b.reverse.getD j false))
    (by intro j hj; rw [getD_range_map, if_pos hj])
    (by intro j hj; rw [getD_range_map, if_pos hj])
  cases i with
  | zero => simp [carries]
  | succ j =>
    have hj : j < 32 := by omega
    have h := hfull j hj
    simp only [Nat.succ_sub_one]
    rw [if_neg (by omega), h, Bool.and_false, Bool.xor_false, wg_full]

theorem length_shift_left (l : List Bool) (sh : Nat) :
    (shift_left l sh).length = 32 := by
  simp [shift_left]

theorem length_xor (a b : Word) : (xor a b).length = min a.length b.length := by
  simp [xor]

theorem length_and (a b : Word) : (and a b).length = min a.length b.length := by
  simp [and]

theorem getD_shift_left (l : List Bool) (sh i : Nat) (hi : i < 32) :
    (shift_left l sh).getD i false =
      if sh ≤ i then l.getD (i - sh) false else false := by
  rw [shift_left, getD_range_map]
  simp [hi]

theorem getD_xor (a b : Word) (i : Nat) (ha : i < a.length) (hb : i < b.length) :
    (xor a b).getD i false = Bool.xor (a.getD i false) (b.getD i false) := by
  rw [xor, getD_zipWith _ _ _ _ false false _ ha hb]

theorem getD_and (a b : Word) (i : Nat) (ha : i < a.length) (hb : i < b.length) :
    (and a b).getD i false = (a.getD i false && b.getD i false) := by
  rw [and, getD_zipWith _ _ _ _ false false _ ha hb]

theorem prefix_step_fst_length (g p : List Bool) (sh : Nat)
    (hgl : g.length = 32) (hpl : p.length = 32) :
    (prefix_step g p sh).1.length = 32 := by
  simp [prefix_step, length_xor, length_and, length_shift_left, hgl, hpl]

theorem prefix_step_snd_length (g p : List Bool) (sh : Nat)
    (hpl : p.length = 32) : (prefix_step g p sh).2.length = 32 := by
  simp [prefix_step, length_and, length_shift_left, hpl]

theorem prefix_step_fst_getD (g p : List Bool) (sh i : Nat) (hi : i < 32)
    (hgl : g.length = 32) (hpl : p.length = 32) :
    (prefix_step g p sh).1.getD i false =
      if sh ≤ i then
        Bool.xor (g.getD i false) (p.getD i false && g.getD (i - sh) false)
      else g.getD i false := by
  have hal : (and p (shift_left g sh)).length = 32 := by
    simp [length_and, length_shift_left, hpl]
  show (xor g (and p (shift_left g sh))).getD i false = _
  rw [getD_xor _ _ _ (by omega) (by omega),
    getD_and _ _ _ (by omega) (by simp [length_shift_left]; omega),
    getD_shift_left _ _ _ hi]
  by_cases h : sh ≤ i <;> simp [h]

theorem prefix_step_snd_getD (g p : List Bool) (sh i : Nat) (hi : i < 32)
    (hpl : p.length = 32) :
    (prefix_step g p sh).2.getD i false =
      if sh ≤ i then (p.getD i false && p.getD (i - sh) false)
      else false := by
  show (and p (shift_left p sh)).getD i false = _
  rw [getD_and _ _ _ (by omega) (by simp [length_shift_left]; omega),
    getD_shift_left _ _ _ hi]
  by_cases h : sh ≤ i <;> simp [h]

/-- One parallel Kogge-Stone `prefix_step` doubles the `(g,p)` window; the
propagate vector is zeroed wherever the doubled window would be clipped. -/
theorem ksp_step_inv (g p : Nat → Bool) (GP : List Bool × List Bool) (m n : Nat)
    (hn : n = 2 * m)
    (hgl : GP.1.length = 32) (hpl : GP.2.length = 32)
    (hG : ∀ i, i < 32 → GP.1.getD i false = wg g p i (min m (i + 1)))
    (hP : ∀ i, i < 32 →
      GP.2.getD i false = if m ≤ i + 1 then wp g p i m else false) :
    (∀ i, i < 32 →
        (prefix_step GP.1 GP.2 m).1.getD i false = wg g p i (min n (i + 1)))
    ∧ (∀ i, i < 32 →
        (prefix_step GP.1 GP.2 m).2.getD i false
          = if n ≤ i + 1 then wp g p i n else false) := by
  subst hn
  constructor
  · intro i hi
    rw [prefix_step_fst_getD GP.1 GP.2 m i hi hgl hpl]
    by_cases hm : m ≤ i
    · have him : i - m < 32 := by omega
      rw [if_pos hm, hG i hi, hP i hi, if_pos (show m ≤ i + 1 by omega),
        hG (i - m) him]
      have h1 : min m (i + 1) = m := by omega
      have h2 : min (2 * m) (i + 1) = m + min m (i - m + 1) := by omega
      rw [h1, h2, wg_split]
    · rw [if_neg hm, hG i hi]
      have h1 : min m (i + 1) = min (2 * m) (i + 1) := by omega
      rw [h1]
  · intro i hi
    rw [prefix_step_snd_getD GP.1 GP.2 m i hi hpl]
    by_cases hm : m ≤ i
    · have him : i - m < 32 := by omega
      rw [if_pos hm, hP i hi, if_pos (show m ≤ i + 1 by omega), hP (i - m) him]
      by_cases h2m : 2 * m ≤ i + 1
      · rw [if_pos (show m ≤ i - m + 1 by omega), if_pos h2m,
          show 2 * m = m + m from by omega, wp_split]
      · rw [if_neg (show ¬m ≤ i - m + 1 by omega), if_neg h2m, Bool.and_false]
    · rw [if_neg hm]
      rw [if_neg (show ¬2 * m ≤ i + 1 by omega)]

/-- After the five `prefix_step`s 1,2,4,8,16 the parallel Kogge-Stone
generate vector holds the full-window generate at every position. -/
theorem ksp_prefix_full (g p : Nat → Bool) (G0 P0 : List Bool)
    (hgl : G0.length = 32) (hpl : P0.length = 32)
    (hG : ∀ i, i < 32 → G0.getD i false = g i)
    (hP : ∀ i, i < 32 → P0.getD i false = p i) :
    ∀ i, i < 32 →
      ([1, 2, 4, 8, 16].foldl (fun s sh => prefix_step s.1 s.2 sh)
          (G0, P0)).1.getD i false
        = wg g p i (i + 1) := by
  have h1g : ∀ i, i < 32 → G0.getD i false = wg g p i (min 1 (i + 1)) := by
    intro i hi
    have hm : min 1 (i + 1) = 1 := by omega
    rw [hm, wg_one]
    exact hG i hi
  have h1p : ∀ i, i < 32 →
      P0.getD i false = if 1 ≤ i + 1 then wp g p i 1 else false := by
    intro i hi
    rw [if_pos (by omega), wp_one]
    exact hP i hi
  have s1 := ksp_step_inv g p (G0, P0) 1 2 (by norm_num) hgl hpl h1g h1p
  have lg1 := prefix_step_fst_length (G0, P0).1 (G0, P0).2 1 hgl hpl
  have lp1 := prefix_step_snd_length (G0, P0).1 (G0, P0).2 1 hpl
  have s2 := ksp_step_inv g p (prefix_step (G0, P0).1 (G0, P0).2 1) 2 4 (by norm_num) lg1 lp1 s1.1 s1.2
  have lg2 := prefix_step_fst_length (prefix_step (G0, P0).1 (G0, P0).2 1).1 (prefix_step (G0, P0).1 (G0, P0).2 1).2 2 lg1 lp1
  have lp2 := prefix_step_snd_length (prefix_step (G0, P0).1 (G0, P0).2 1).1 (prefix_step (G0, P0).1 (G0, P0).2 1).2 2 lp1
  have s3 := ksp_step_inv g p (prefix_step (prefix_step (G0, P0).1 (G0, P0).2 1).1 (prefix_step (G0, P0).1 (G0, P0).2 1).2 2) 4 8 (by norm_num) lg2 lp2 s2.1 s2.2
  have lg3 := prefix_step_fst_length (prefix_step (prefix_step (G0, P0).1 (G0, P0).2 1).1 (prefix_step (G0, P0).1 (G0, P0).2 1).2 2).1 (prefix_step (prefix_step (G0, P0).1 (G0, P0).2 1).1 (prefix_step (G0, P0).1 (G0, P0).2 1).2 2).2 4 lg2 lp2
  have lp3 := prefix_step_snd_length (prefix_step (prefix_step (G0, P0).1 (G0, P0).2 1).1 (prefix_step (G0, P0).1 (G0, P0).2 1).2 2).1 (prefix_step (prefix_step (G0, P0).1 (G0, P0).2 1).1 (prefix_step (G0, P0).1 (G0, P0).2 1).2 2).2 4 lp2
  have s4 := ksp_step_inv g p (prefix_step (prefix_step (prefix_step (G0, P0).1 (G0, P0).2 1).1 (prefix_step (G0, P0).1 (G0, P0).2 1).2 2).1 (prefix_step (prefix_step (G0, P0).1 (G0, P0).2 1).1 (prefix_step (G0, P0).1 (G0, P0).2 1).2 2).2 4) 8 16 (by norm_num) lg3 lp3 s3.1 s3.2
  have lg4 := prefix_step_fst_length (prefix_step (prefix_step (prefix_step (G0, P0).1 (G0, P0).2 1).1 (prefix_step (G0, P0).1 (G0, P0).2 1).2 2).1 (prefix_step (prefix_step (G0, P0).1 (G0, P0).2 1).1 (prefix_step (G0, P0).1 (G0, P0).2 1).2 2).2 4).1 (prefix_step (prefix_step (prefix_step (G0, P0).1 (G0, P0).2 1).1 (prefix_step (G0, P0).1 (G0, P0).2 1).2 2).1 (prefix_step (prefix_step (G0, P0).1 (G0, P0).2 1).1 (prefix_step (G0, P0).1 (G0, P0).2 1).2 2).2 4).2 8 lg3 lp3
  have lp4 := prefix_step_snd_length (prefix_step (prefix_step (prefix_step (G0, P0).1 (G0, P0).2 1).1 (prefix_step (G0, P0).1 (G0, P0).2 1).2 2).1 (prefix_step (prefix_step (G0, P0).1 (G0, P0).2 1).1 (prefix_step (G0, P0).1 (G0, P0).2 1).2 2).2 4).1 (prefix_step (prefix_step (prefix_step (G0, P0).1 (G0, P0).2 1).1 (prefix_step (G0, P0).1 (G0, P0).2 1).2 2).1 (prefix_step (prefix_step (G0, P0).1 (G0, P0).2 1).1 (prefix_step (G0, P0).1 (G0, P0).2 1).2 2).2 4).2 8 lp3
  have s5 := ksp_step_inv g p (prefix_step (prefix_step (prefix_step (prefix_step (G0, P0).1 (G0, P0).2 1).1 (prefix_step (G0, P0).1 (G0, P0).2 1).2 2).1 (prefix_step (prefix_step (G0, P0).1 (G0, P0).2 1).1 (prefix_step (G0, P0).1 (G0, P0).2 1).2 2).2 4).1 (prefix_step (prefix_step (prefix_step (G0, P0).1 (G0, P0).2 1).1 (prefix_step (G0, P0).1 (G0, P0).2 1).2 2).1 (prefix_step (prefix_step (G0, P0).1 (G0, P0).2 1).1 (prefix_step (G0, P0).1 (G0, P0).2 1).2 2).2 4).2 8) 16 32 (by norm_num) lg4 lp4 s4.1 s4.2
  intro i hi
  have hmin : min 32 (i + 1) = i + 1 := by omega
  have h := s5.1 i hi
  rw [hmin] at h
  simp only [List.foldl_cons, List.foldl_nil]
  exact h

/-- Correctness of the parallel Kogge-Stone adder (the active `add`). -/
theorem add_koggestone_32_bits_prallel_spec (a b : Word) (ha : a.length = 32)
    (hb : b.length = 32) :
    add_koggestone_32_bits_prallel a b
      = u32_to_bit ((wordVal a + wordVal b) % 2 ^ 32) := by
  have hra : a.reverse.length = 32 := by simp [ha]
  have hrb : b.reverse.length = 32 := by simp [hb]
  have hpl : (xor a.reverse b.reverse).length = 32 := by
    simp [length_xor, hra, hrb]
  have hgl : (and a.reverse b.reverse).length = 32 := by
    simp [length_and, hra, hrb]
  have hfull := ksp_prefix_full
    (fun j => a.reverse.getD j false && b.reverse.getD j false)
    (fun j => Bool.xor (a.reverse.getD j false) (b.reverse.getD j false))
    (and a.reverse b.reverse) (xor a.reverse b.reverse) hgl hpl
    (by intro j hj; rw [getD_and _ _ _ (by omega) (by omega)])
    (by intro j hj; rw [getD_xor _ _ _ (by omega) (by omega)])
  simp only [add_koggestone_32_bits_prallel]
  apply be_result_spec a b ha hb _
    (by simp [length_xor, length_shift_left, hpl])
  intro i hi
  rw [getD_xor _ _ _ (by omega) (by simp [length_shift_left]; omega),
    getD_xor _ _ _ (by omega) (by omega),
    getD_shift_left _ _ _ hi]
  cases i with
  | zero => simp [carries]
  | succ j =>
    have hj : j < 32 := by omega
    have h := hfull j hj
    rw [if_pos (by omega), Nat.succ_sub_one, h, wg_full]

theorem hc_step_fst_getD (gp : List Bool × List Bool) (gap i : Nat)
    (h : i < 32) :
    (hc_step gp gap).1.getD i false =
      if gap ≤ i ∧ i % 2 = 0 then
        Bool.xor (gp.1.getD i false)
          (gp.2.getD i false && gp.1.getD (i - gap) false)
      else gp.1.getD i false := by
  simp only [hc_step]
  rw [getD_range_map]
  simp [h]

theorem hc_step_snd_getD (gp : List Bool × List Bool) (gap i : Nat)
    (h : i < 32) :
    (hc_step gp gap).2.getD i false =
      if gap ≤ i ∧ i % 2 = 0 then gp.2.getD i false && gp.2.getD (i - gap) false
      else gp.2.getD i false := by
  simp only [hc_step]
  rw [getD_range_map]
  simp [h]

/-- One Han-Carlson gap-step doubles the `(g,p)` window at even positions
(odd positions keep their atoms). -/
theorem hc_step_inv (g p : Nat → Bool) (gp : List Bool × List Bool) (m n : Nat)
    (hn : n = 2 * m) (hm : m = 1 ∨ m % 2 = 0)
    (hG : ∀ i, i < 32 →
      gp.1.getD i false = wg g p i (if i % 2 = 0 then min m (i + 1) else 1))
    (hP : ∀ i, i < 32 →
      gp.2.getD i false = wp g p i (if i % 2 = 0 then min m (i + 1) else 1)) :
    (∀ i, i < 32 →
        (hc_step gp m).1.getD i false
          = wg g p i (if i % 2 = 0 then min n (i + 1) else 1))
    ∧ (∀ i, i < 32 →
        (hc_step gp m).2.getD i false
          = wp g p i (if i % 2 = 0 then min n (i + 1) else 1)) := by
  subst hn
  have hwin : ∀ i, m ≤ i → i % 2 = 0 →
      (if (i - m) % 2 = 0 then min m (i - m + 1) else 1) = min m (i - m + 1) := by
    intro i hmi hev
    rcases hm with h1 | h2
    · subst h1
      split <;> omega
    · have : (i - m) % 2 = 0 := by omega
      rw [if_pos this]
  constructor
  · intro i hi
    rw [hc_step_fst_getD gp m i hi]
    by_cases hc : m ≤ i ∧ i % 2 = 0
    · have him : i - m < 32 := by omega
      rw [if_pos hc, hG i hi, hP i hi, hG (i - m) him, hwin i hc.1 hc.2,
        if_pos hc.2, if_pos hc.2]
      have h1 : min m (i + 1) = m := by omega
      have h2 : min (2 * m) (i + 1) = m + min m (i - m + 1) := by omega
      rw [h1, h2, wg_split]
    · rw [if_neg hc, hG i hi]
      by_cases hev : i % 2 = 0
      · have hlt : ¬ m ≤ i := fun hmle => hc ⟨hmle, hev⟩
        rw [if_pos hev, if_pos hev]
        have : min m (i + 1) = min (2 * m) (i + 1) := by omega
        rw [this]
      · rw [if_neg hev, if_neg hev]
  · intro i hi
    rw [hc_step_snd_getD gp m i hi]
    by_cases hc : m ≤ i ∧ i % 2 = 0
    · have him : i - m < 32 := by omega
      rw [if_pos hc, hP i hi, hP (i - m) him, hwin i hc.1 hc.2,
        if_pos hc.2, if_pos hc.2]
      have h1 : min m (i + 1) = m := by omega
      have h2 : min (2 * m) (i + 1) = m + min m (i - m + 1) := by omega
      rw [h1, h2, wp_split]
    · rw [if_neg hc, hP i hi]
      by_cases hev : i % 2 = 0
      · have hlt : ¬ m ≤ i := fun hmle => hc ⟨hmle, hev⟩
        rw [if_pos hev, if_pos hev]
        have : min m (i + 1) = min (2 * m) (i + 1) := by omega
        rw [this]
      · rw [if_neg hev, if_neg hev]

/-- After the Han-Carlson gap-steps 1,2,4,8,16 every even position holds the
full-window generate. -/
theorem hc_prefix_full (g p : Nat → Bool) (G0 P0 : List Bool)
    (hG : ∀ i, i < 32 → G0.getD i false = g i)
    (hP : ∀ i, i < 32 → P0.getD i false = p i) :
    ∀ i, i < 32 → i % 2 = 0 →
      ([1, 2, 4, 8, 16].foldl hc_step (G0, P0)).1.getD i false
        = wg g p i (i + 1) := by
  have h1g : ∀ i, i < 32 →
      (G0, P0).1.getD i false = wg g p i (if i % 2 = 0 then min 1 (i + 1) else 1) := by
    intro i hi
    have hw : (if i % 2 = 0 then min 1 (i + 1) else 1) = 1 := by
      split <;> omega
    rw [hw, wg_one]
    exact hG i hi
  have h1p : ∀ i, i < 32 →
      (G0, P0).2.getD i false = wp g p i (if i % 2 = 0 then min 1 (i + 1) else 1) := by
    intro i hi
    have hw : (if i % 2 = 0 then min 1 (i + 1) else 1) = 1 := by
      split <;> omega
    rw [hw, wp_one]
    exact hP i hi
  have s1 := hc_step_inv g p (G0, P0) 1 2 (by norm_num) (by norm_num) h1g h1p
  have s2 := hc_step_inv g p _ 2 4 (by norm_num) (by norm_num) s1.1 s1.2
  have s4 := hc_step_inv g p _ 4 8 (by norm_num) (by norm_num) s2.1 s2.2
  have s8 := hc_step_inv g p _ 8 16 (by norm_num) (by norm_num) s4.1 s4.2
  have s16 := hc_step_inv g p _ 16 32 (by norm_num) (by norm_num) s8.1 s8.2
  intro i hi hev
  have h := s16.1 i hi
  rw [if_pos hev, show min 32 (i + 1) = i + 1 from by omega] at h
  simpa [List.foldl] using h

/-- The even/odd Han-Carlson carry chain computes the ripple carries. -/
theorem hc_carry_spec (aF bF : Nat → Bool) (gl pl Gl : List Bool)
    (hgl : ∀ i, i < 32 → gl.getD i false = (aF i && bF i))
    (hpl : ∀ i, i < 32 → pl.getD i false = Bool.xor (aF i) (bF i))
    (hGl : ∀ i, i < 32 → i % 2 = 0 →
      Gl.getD i false
        = wg (fun j => aF j && bF j) (fun j => Bool.xor (aF j) (bF j)) i (i + 1)) :
    ∀ i, i ≤ 32 → hc_carry gl pl Gl i = carries aF bF i := by
  intro i
  induction i with
  | zero => intro _; rfl
  | succ j ih =>
    intro hj
    have hj32 : j < 32 := by omega
    show (if j % 2 = 0 then Gl.getD j false
      else Bool.xor (gl.getD j false) (pl.getD j false && hc_carry gl pl Gl j)) = _
    by_cases hev : j % 2 = 0
    · rw [if_pos hev, hGl j hj32 hev, wg_full]
    · rw [if_neg hev, hgl j hj32, hpl j hj32, ih (by omega)]
      rfl

/-- Correctness of the 32-bit Han-Carlson adder (even-index prefix tree,
odd-index local carries). -/
theorem add_hancarlson_32_bits_spec (a b : Word) (ha : a.length = 32)
    (hb : b.length = 32) :
    add_hancarlson_32_bits a b
      = u32_to_bit ((wordVal a + wordVal b) % 2 ^ 32) := by
  simp only [add_hancarlson_32_bits]
  apply be_result_spec a b ha hb _ (by simp)
  intro i hi
  rw [getD_range_map, if_pos hi]
  have hcar := hc_carry_spec
    (fun j => a.reverse.getD j false) (fun j => b.reverse.getD j false)
    ((List.range 32).map fun j => a.reverse.getD j false && b.reverse.getD j false)
    ((List.range 32).map fun j =>
      Bool.xor (a.reverse.getD j false) (b.reverse.getD j false))
    ([1, 2, 4, 8, 16].foldl hc_step
      ((List.range 32).map fun j => a.reverse.getD j false && b.reverse.getD j false,
       (List.range 32).map fun j =>
         Bool.xor (a.reverse.getD j false) (b.reverse.getD j false))).1
    (by intro j hj; rw [getD_range_map, if_pos hj])
    (by intro j hj; rw [getD_range_map, if_pos hj])
    (by
      intro j hj hev
      exact hc_prefix_full _ _ _ _
        (by intro k hk; rw [getD_range_map, if_pos hk])
        (by intro k hk; rw [getD_range_map, if_pos hk]) j hj hev)
  rw [getD_range_map, if_pos hi, hcar i (by omega)]

theorem bk4_value : ∀ a0 a1 a2 a3 b0 b1 b2 b3 ci : Bool,
    lval (brent_kung_adder_4_bits [a0, a1, a2, a3] [b0, b1, b2, b3] ci).1
        + 16 * ((brent_kung_adder_4_bits [a0, a1, a2, a3] [b0, b1, b2, b3] ci).2).toNat
      = lval [a0, a1, a2, a3] + lval [b0, b1, b2, b3] + ci.toNat := by
  decide

theorem list_four_split (l : List Bool) (h : 4 ≤ l.length) :
    ∃ x0 x1 x2 x3 t, l = x0 :: x1 :: x2 :: x3 :: t := by
  match l with
  | x0 :: x1 :: x2 :: x3 :: t => exact ⟨x0, x1, x2, x3, t, rfl⟩
  | [] | [_] | [_, _] | [_, _, _] => simp at h

theorem chain4_bk_spec (n : Nat) : ∀ (la lb : List Bool) (c : Bool),
    la.length = 4 * n → lb.length = 4 * n →
    (chain4 brent_kung_adder_4_bits n la lb c).length = 4 * n
    ∧ lval (chain4 brent_kung_adder_4_bits n la lb c) % 2 ^ (4 * n)
        = (lval la + lval lb + c.toNat) % 2 ^ (4 * n) := by
  induction n with
  | zero =>
    intro la lb c hla hlb
    have : la = [] := List.length_eq_zero.mp (by omega)
    have hb : lb = [] := List.length_eq_zero.mp (by omega)
    subst this; subst hb
    simp [chain4, Nat.mod_one]
  | succ n ih =>
    intro la lb c hla hlb
    obtain ⟨a0, a1, a2, a3, ta, rfl⟩ := list_four_split la (by omega)
    obtain ⟨b0, b1, b2, b3, tb, rfl⟩ := list_four_split lb (by omega)
    have hta : ta.length = 4 * n := by
      simp only [List.length_cons] at hla; omega
    have htb : tb.length = 4 * n := by
      simp only [List.length_cons] at hlb; omega
    have hblk := bk4_value a0 a1 a2 a3 b0 b1 b2 b3 c
    have hshape : chain4 brent_kung_adder_4_bits (n + 1)
          (a0 :: a1 :: a2 :: a3 :: ta) (b0 :: b1 :: b2 :: b3 :: tb) c
        = (brent_kung_adder_4_bits [a0, a1, a2, a3] [b0, b1, b2, b3] c).1
            ++ chain4 brent_kung_adder_4_bits n ta tb
                (brent_kung_adder_4_bits [a0, a1, a2, a3] [b0, b1, b2, b3] c).2 := by
      rfl
    obtain ⟨ihl, ihv⟩ := ih ta tb
      (brent_kung_adder_4_bits [a0, a1, a2, a3] [b0, b1, b2, b3] c).2 hta htb
    have hbl : (brent_kung_adder_4_bits [a0, a1, a2, a3] [b0, b1, b2, b3] c).1.length
        = 4 := rfl
    constructor
    · rw [hshape, List.length_append, hbl, ihl]
      omega
    · rw [hshape, lval_append, hbl]
      have h16 : (2 : Nat) ^ (4 * (n + 1)) = 16 * 2 ^ (4 * n) := by
        rw [show 4 * (n + 1) = 4 + 4 * n from by omega, pow_add]
        norm_num
      have hmod : (16 : Nat) * lval (chain4 brent_kung_adder_4_bits n ta tb
            (brent_kung_adder_4_bits [a0, a1, a2, a3] [b0, b1, b2, b3] c).2)
            % (16 * 2 ^ (4 * n))
          = 16 * ((lval ta + lval tb
              + ((brent_kung_adder_4_bits [a0, a1, a2, a3] [b0, b1, b2, b3] c).2).toNat))
            % (16 * 2 ^ (4 * n)) := by
        rw [Nat.mul_mod_mul_left, ihv, ← Nat.mul_mod_mul_left]
      have hlv4 : lval (a0 :: a1 :: a2 :: a3 :: ta)
          = lval [a0, a1, a2, a3] + 16 * lval ta := by
        have := lval_append [a0, a1, a2, a3] ta
        simpa using this
      have hlv4b : lval (b0 :: b1 :: b2 :: b3 :: tb)
          = lval [b0, b1, b2, b3] + 16 * lval tb := by
        have := lval_append [b0, b1, b2, b3] tb
        simpa using this
      rw [h16, hlv4, hlv4b, show (2 : Nat) ^ 4 = 16 from by norm_num]
      have hcongr := Nat.ModEq.add_left
        (lval (brent_kung_adder_4_bits [a0, a1, a2, a3] [b0, b1, b2, b3] c).1) hmod
      rw [Nat.ModEq] at hcongr
      rw [hcongr]
      congr 1
      omega

/-- Correctness of the Brent-Kung adder (8 chained 4-bit blocks). -/
theorem add_brentkung_spec (a b : Word) (ha : a.length = 32)
    (hb : b.length = 32) :
    add_brentkung a b = u32_to_bit ((wordVal a + wordVal b) % 2 ^ 32) := by
  have hra : a.reverse.length = 4 * 8 := by simp [ha]
  have hrb : b.reverse.length = 4 * 8 := by simp [hb]
  obtain ⟨hcl, hcv⟩ := chain4_bk_spec 8 a.reverse b.reverse false hra hrb
  have hlt := lval_lt (chain4 brent_kung_adder_4_bits 8 a.reverse b.reverse false)
  rw [hcl] at hlt
  apply eq_u32_of_val
  · simp [add_brentkung, hcl]
  · have hv : wordVal (add_brentkung a b)
        = lval (chain4 brent_kung_adder_4_bits 8 a.reverse b.reverse false) := by
      unfold add_brentkung wordVal
      rw [List.reverse_reverse]
    rw [hv, wordVal, wordVal]
    norm_num at hcv hlt ⊢
    omega

theorem add_const_core_length (l : List Bool) : ∀ (b : Nat) (ci : Bool),
    (add_const_core l b ci).length = l.length := by
  induction l with
  | nil => intro b ci; rfl
  | cons a t ih =>
    intro b ci
    by_cases hb : b % 2 = 1 <;> simp [add_const_core, hb, ih]

theorem add_const_bit1 : ∀ a ci : Bool,
    (Bool.xor (Bool.xor a true) ci).toNat
        + 2 * (Bool.xor (ci && Bool.xor a true) a).toNat
      = a.toNat + 1 + ci.toNat := by decide

theorem add_const_bit0 : ∀ a ci : Bool,
    (Bool.xor a ci).toNat + 2 * (ci && a).toNat = a.toNat + ci.toNat := by decide

theorem add_const_core_mod (l : List Bool) : ∀ (b : Nat) (ci : Bool),
    lval (add_const_core l b ci) % 2 ^ l.length
      = (lval l + b + ci.toNat) % 2 ^ l.length := by
  induction l with
  | nil => intro b ci; simp [add_const_core, Nat.mod_one]
  | cons a t ih =>
    intro b ci
    by_cases hb : b % 2 = 1
    · have hshape : add_const_core (a :: t) b ci
          = Bool.xor (Bool.xor a true) ci
              :: add_const_core t (b / 2) (Bool.xor (ci && Bool.xor a true) a) := by
        simp [add_const_core, hb]
      have ihm : Nat.ModEq (2 ^ t.length)
          (lval (add_const_core t (b / 2) (Bool.xor (ci && Bool.xor a true) a)))
          (lval t + b / 2 + (Bool.xor (ci && Bool.xor a true) a).toNat) := ih _ _
      have h2 := Nat.ModEq.add_left (Bool.xor (Bool.xor a true) ci).toNat
        (Nat.ModEq.mul_left' (c := 2) ihm)
      rw [Nat.ModEq] at h2
      have heq : (Bool.xor (Bool.xor a true) ci).toNat
          + 2 * (lval t + b / 2 + (Bool.xor (ci && Bool.xor a true) a).toNat)
          = a.toNat + 2 * lval t + b + ci.toNat := by
        have hfull := add_const_bit1 a ci
        omega
      rw [hshape]
      simp only [lval_cons, List.length_cons, pow_succ]
      rw [Nat.mul_comm ((2 : Nat) ^ t.length) 2, h2, heq]
    · have hshape : add_const_core (a :: t) b ci
          = Bool.xor a ci :: add_const_core t (b / 2) (ci && a) := by
        simp [add_const_core, hb]
      have ihm : Nat.ModEq (2 ^ t.length)
          (lval (add_const_core t (b / 2) (ci && a)))
          (lval t + b / 2 + (ci && a).toNat) := ih _ _
      have h2 := Nat.ModEq.add_left (Bool.xor a ci).toNat
        (Nat.ModEq.mul_left' (c := 2) ihm)
      rw [Nat.ModEq] at h2
      have heq : (Bool.xor a ci).toNat
          + 2 * (lval t + b / 2 + (ci && a).toNat)
          = a.toNat + 2 * lval t + b + ci.toNat := by
        have hfull := add_const_bit0 a ci
        omega
      rw [hshape]
      simp only [lval_cons, List.length_cons, pow_succ]
      rw [Nat.mul_comm ((2 : Nat) ^ t.length) 2, h2, heq]

/-- Correctness of `add_const`: ripple addition of a constant
(for a u32 constant `b < 2^32` this is `(a + b) mod 2^32`; the statement
holds for any `b` because only its low 32 bits are consumed). -/
theorem add_const_spec (a : Word) (b : Nat) (ha : a.length = 32) :
    add_const a b = u32_to_bit ((wordVal a + b) % 2 ^ 32) := by
  have hra : a.reverse.length = 32 := by simp [ha]
  have hl := add_const_core_length a.reverse b false
  rw [hra] at hl
  have hm := add_const_core_mod a.reverse b false
  rw [hra] at hm
  simp only [Bool.toNat_false, Nat.add_zero] at hm
  have hlt := lval_lt (add_const_core a.reverse b false)
  rw [hl] at hlt
  apply eq_u32_of_val
  · simp [add_const, hl]
  · have hv : wordVal (add_const a b)
        = lval (add_const_core a.reverse b false) := by
      unfold add_const wordVal
      rw [List.reverse_reverse]
    rw [hv, wordVal]
    omega

/-- Correctness of the `add` selector (the parallel Kogge-Stone choice). -/
theorem add_spec (a b : Word) (ha : a.length = 32) (hb : b.length = 32) :
    add a b = u32_to_bit ((wordVal a + wordVal b) % 2 ^ 32) :=
  add_koggestone_32_bits_prallel_spec a b ha hb

theorem add_length (a b : Word) (ha : a.length = 32) (hb : b.length = 32) :
    (add a b).length = 32 := by
  rw [add_spec a b ha hb, length_u32_to_bit]

theorem wordVal_add (a b : Word) (ha : a.length = 32) (hb : b.length = 32) :
    wordVal (add a b) = (wordVal a + wordVal b) % 2 ^ 32 := by
  rw [add_spec a b ha hb, wordVal_u32_to_bit, Nat.mod_mod_of_dvd _ (dvd_refl _)]

theorem testBit_valF (f : Nat → Bool) (n i : Nat) :
    (valF f n).testBit i = if i < n then f i else false := by
  rw [← lval_range_map, testBit_lval, getD_range_map]

theorem valF_xor (f g : Nat → Bool) (n : Nat) :
    valF (fun i => Bool.xor (f i) (g i)) n = valF f n ^^^ valF g n := by
  apply Nat.eq_of_testBit_eq
  intro i
  rw [Nat.testBit_xor, testBit_valF, testBit_valF, testBit_valF]
  by_cases h : i < n <;> simp [h]

theorem valF_and (f g : Nat → Bool) (n : Nat) :
    valF (fun i => (f i && g i)) n = valF f n &&& valF g n := by
  apply Nat.eq_of_testBit_eq
  intro i
  rw [Nat.testBit_and, testBit_valF, testBit_valF, testBit_valF]
  by_cases h : i < n <;> simp [h]

theorem wordVal_eq_valF (a : Word) (ha : a.length = 32) :
    wordVal a = valF (fun j => a.reverse.getD j false) 32 := by
  rw [wordVal, lval_eq_valF]
  simp [ha]

theorem wordVal_reverse_range_map (f : Nat → Bool) :
    wordVal ((List.range 32).map f).reverse = valF f 32 := by
  rw [wordVal, List.reverse_reverse, lval_range_map]

/-- A three-operand column sum: per column `a + b + c = s + 2·maj`, summed
over `n` little-endian columns. -/
theorem csa_valF (aF bF cF : Nat → Bool) (n : Nat) :
    valF aF n + valF bF n + valF cF n
      = valF (fun i => Bool.xor (Bool.xor (aF i) (bF i)) (cF i)) n
        + 2 * valF (fun i =>
            Bool.xor (Bool.xor (aF i && bF i) (bF i && cF i)) (aF i && cF i)) n := by
  induction n with
  | zero => rfl
  | succ n ih =>
    have hp : (0 : Nat) < 2 ^ n := Nat.two_pow_pos n
    simp only [valF, pow_succ]
    cases ha : aF n <;> cases hb : bF n <;> cases hc : cF n <;>
      simp only [ha, hb, hc, Bool.false_and, Bool.true_and, Bool.and_false,
        Bool.and_true, Bool.false_xor, Bool.xor_false, Bool.true_xor,
        Bool.xor_true, Bool.not_true, Bool.not_false, Bool.toNat_true,
        Bool.toNat_false] at ih ⊢ <;> omega

theorem valF_shift_one (h : Nat → Bool) (n : Nat) :
    valF (fun i => if i = 0 then false else h (i - 1)) (n + 1)
      = 2 * valF h n := by
  induction n with
  | zero => simp [valF]
  | succ n ih =>
    show valF _ (n + 1) + 2 ^ (n + 1) * _ = _
    rw [ih]
    simp only [valF, pow_succ]
    have : (if n + 1 = 0 then false else h (n + 1 - 1)) = h n := by simp
    rw [this]
    ring

/-- The sum word of `add_csa3` is the bitwise XOR `a ⊕ b ⊕ c`. -/
theorem add_csa3_fst (a b c : Word) (ha : a.length = 32) (hb : b.length = 32)
    (hc : c.length = 32) :
    (add_csa3 a b c).1
      = u32_to_bit ((wordVal a ^^^ wordVal b) ^^^ wordVal c) := by
  simp only [add_csa3]
  apply eq_u32_of_val (by simp)
  rw [wordVal_reverse_range_map]
  rw [show (fun i => Bool.xor
        (Bool.xor (a.reverse.getD i false) (b.reverse.getD i false))
        (c.reverse.getD i false))
      = fun i => Bool.xor
        ((fun j => Bool.xor (a.reverse.getD j false) (b.reverse.getD j false)) i)
        ((fun j => c.reverse.getD j false) i) from rfl, valF_xor, valF_xor]
  rw [← wordVal_eq_valF a ha, ← wordVal_eq_valF b hb, ← wordVal_eq_valF c hc]
  rw [Nat.mod_eq_of_lt]
  exact Nat.xor_lt_two_pow
    (Nat.xor_lt_two_pow (by rw [← ha]; exact wordVal_lt a)
      (by rw [← hb]; exact wordVal_lt b))
    (by rw [← hc]; exact wordVal_lt c)

/-- The carry word of `add_csa3` is the majority word shifted left one
position (its top bit dropped, its bottom position the zero constant). -/
theorem add_csa3_snd (a b c : Word) (ha : a.length = 32) (hb : b.length = 32)
    (hc : c.length = 32) :
    (add_csa3 a b c).2
      = u32_to_bit (2 * (((wordVal a &&& wordVal b) ^^^ (wordVal b &&& wordVal c))
          ^^^ (wordVal a &&& wordVal c))) := by
  simp only [add_csa3]
  apply eq_u32_of_val (by simp)
  rw [wordVal_reverse_range_map]
  have hmaj : ((wordVal a &&& wordVal b) ^^^ (wordVal b &&& wordVal c))
        ^^^ (wordVal a &&& wordVal c)
      = valF (fun i =>
          Bool.xor (Bool.xor (a.reverse.getD i false && b.reverse.getD i false)
            (b.reverse.getD i false && c.reverse.getD i false))
            (a.reverse.getD i false && c.reverse.getD i false)) 32 := by
    rw [wordVal_eq_valF a ha, wordVal_eq_valF b hb, wordVal_eq_valF c hc]
    rw [← valF_and, ← valF_and, ← valF_and, ← valF_xor, ← valF_xor]
  rw [hmaj]
  have hshift := valF_shift_one (fun i =>
    Bool.xor (Bool.xor (a.reverse.getD i false && b.reverse.getD i false)
      (b.reverse.getD i false && c.reverse.getD i false))
      (a.reverse.getD i false && c.reverse.getD i false)) 31
  have h31 := valF_lt (fun i =>
    Bool.xor (Bool.xor (a.reverse.getD i false && b.reverse.getD i false)
      (b.reverse.getD i false && c.reverse.getD i false))
      (a.reverse.getD i false && c.reverse.getD i false)) 31
  have h32 : valF (fun i =>
      Bool.xor (Bool.xor (a.reverse.getD i false && b.reverse.getD i false)
        (b.reverse.getD i false && c.reverse.getD i false))
        (a.reverse.getD i false && c.reverse.getD i false)) 32
      = valF (fun i =>
          Bool.xor (Bool.xor (a.reverse.getD i false && b.reverse.getD i false)
            (b.reverse.getD i false && c.reverse.getD i false))
            (a.reverse.getD i false && c.reverse.getD i false)) 31
        + 2 ^ 31 * ((fun i =>
          Bool.xor (Bool.xor (a.reverse.getD i false && b.reverse.getD i false)
            (b.reverse.getD i false && c.reverse.getD i false))
            (a.reverse.getD i false && c.reverse.getD i false)) 31).toNat := rfl
  rw [show valF (fun i => if i = 0 then false
        else Bool.xor (Bool.xor (a.reverse.getD (i - 1) false && b.reverse.getD (i - 1) false)
          (b.reverse.getD (i - 1) false && c.reverse.getD (i - 1) false))
          (a.reverse.getD (i - 1) false && c.reverse.getD (i - 1) false)) 32
      = 2 * valF (fun i =>
          Bool.xor (Bool.xor (a.reverse.getD i false && b.reverse.getD i false)
            (b.reverse.getD i false && c.reverse.getD i false))
            (a.reverse.getD i false && c.reverse.getD i false)) 31 from hshift]
  have ht : ((fun i =>
      Bool.xor (Bool.xor (a.reverse.getD i false && b.reverse.getD i false)
        (b.reverse.getD i false && c.reverse.getD i false))
        (a.reverse.getD i false && c.reverse.getD i false)) 31).toNat ≤ 1 :=
    Bool.toNat_le _
  omega

theorem getD_drop {α : Type} (l : List α) (n i : Nat) (d : α) :
    (l.drop n).getD i d = l.getD (n + i) d := by
  simp [List.getD_eq_getElem?_getD, List.getElem?_drop]

theorem getD_map {α β : Type} (f : α → β) (l : List α) (i : Nat) (d : β)
    (da : α) (h : i < l.length) :
    (l.map f).getD i d = f (l.getD i da) := by
  simp [List.getD_eq_getElem?_getD, List.getElem?_map, List.getElem?_eq_getElem h]

/-- Extensionality for word values: a length-32 word whose little-endian bits
agree with the bits of a value `v < 2^32` has value `v`. -/
theorem val_ext (w : Word) (hw : w.length = 32) (v : Nat) (hv : v < 2 ^ 32)
    (h : ∀ j, j < 32 → w.reverse.getD j false = v.testBit j) : wordVal w = v := by
  apply Nat.eq_of_testBit_eq
  intro j
  rw [testBit_wordVal]
  by_cases hj : j < 32
  · exact h j hj
  · rw [getD_of_length_le _ _ _ (by simp [hw]; omega)]
    have : v < 2 ^ j :=
      lt_of_lt_of_le hv (Nat.pow_le_pow_right (by norm_num) (by omega))
    exact (Nat.testBit_lt_two_pow this).symm

/-- Little-endian bit `j` of a big-endian word is big-endian entry `31 - j`. -/
theorem getD_reverse32 (w : Word) (hw : w.length = 32) (j : Nat) (hj : j < 32) :
    w.reverse.getD j false = w.getD (31 - j) false := by
  rw [getD_reverse _ _ _ (by omega), hw]

theorem testBit_wordVal32 (w : Word) (hw : w.length = 32) (j : Nat)
    (hj : j < 32) : (wordVal w).testBit j = w.getD (31 - j) false := by
  rw [testBit_wordVal, getD_reverse32 w hw j hj]

/-- `xor` computes the bitwise XOR of the word values. -/
theorem xor_spec (a b : Word) (ha : a.length = 32) (hb : b.length = 32) :
    xor a b = u32_to_bit (wordVal a ^^^ wordVal b) := by
  have hva : wordVal a < 2 ^ 32 := by rw [← ha]; exact wordVal_lt a
  have hvb : wordVal b < 2 ^ 32 := by rw [← hb]; exact wordVal_lt b
  have hv : wordVal a ^^^ wordVal b < 2 ^ 32 := Nat.xor_lt_two_pow hva hvb
  have hl : (xor a b).length = 32 := by simp [length_xor, ha, hb]
  apply eq_u32_of_val hl
  rw [Nat.mod_eq_of_lt hv]
  apply val_ext _ hl _ hv
  intro j hj
  rw [getD_reverse32 _ hl j hj, Nat.testBit_xor,
    testBit_wordVal32 a ha j hj, testBit_wordVal32 b hb j hj,
    xor, getD_zipWith _ _ _ _ false false _ (by omega) (by omega)]

/-- `and` computes the bitwise AND of the word values. -/
theorem and_spec (a b : Word) (ha : a.length = 32) (hb : b.length = 32) :
    and a b = u32_to_bit (wordVal a &&& wordVal b) := by
  have hva : wordVal a < 2 ^ 32 := by rw [← ha]; exact wordVal_lt a
  have hv : wordVal a &&& wordVal b < 2 ^ 32 := Nat.and_lt_two_pow _ (by
    rw [← hb]; exact wordVal_lt b)
  have hl : (and a b).length = 32 := by simp [length_and, ha, hb]
  apply eq_u32_of_val hl
  rw [Nat.mod_eq_of_lt hv]
  apply val_ext _ hl _ hv
  intro j hj
  rw [getD_reverse32 _ hl j hj, Nat.testBit_and,
    testBit_wordVal32 a ha j hj, testBit_wordVal32 b hb j hj,
    and, getD_zipWith _ _ _ _ false false _ (by omega) (by omega)]

/-- `not` computes the 32-bit complement of the word value. -/
theorem not_spec (a : Word) (ha : a.length = 32) :
    not a = u32_to_bit (not32 (wordVal a)) := by
  have hva : wordVal a < 2 ^ 32 := by rw [← ha]; exact wordVal_lt a
  have hmask : (2 : Nat) ^ 32 - 1 < 2 ^ 32 := by norm_num
  have hv : not32 (wordVal a) < 2 ^ 32 := Nat.xor_lt_two_pow hmask hva
  have hl : (not a).length = 32 := by simp [not, ha]
  apply eq_u32_of_val hl
  rw [Nat.mod_eq_of_lt hv]
  apply val_ext _ hl _ hv
  intro j hj
  rw [getD_reverse32 _ hl j hj, not32, Nat.testBit_xor,
    Nat.testBit_two_pow_sub_one, testBit_wordVal32 a ha j hj,
    not, getD_map _ _ _ _ false (by omega)]
  simp [hj]

/-- `rotate_right` computes the standard 32-bit right rotation
`(x >> k) | (x << (32-k))` truncated to 32 bits. -/
theorem rotate_right_spec (w : Word) (k : Nat) (hw : w.length = 32)
    (hk : k < 32) :
    rotate_right w k = u32_to_bit (rotr32 (wordVal w) k) := by
  have hvw : wordVal w < 2 ^ 32 := by rw [← hw]; exact wordVal_lt w
  have hl : (rotate_right w k).length = 32 := by
    simp [rotate_right, hw]
  apply eq_u32_of_val hl
  have hv : rotr32 (wordVal w) k < 2 ^ 32 := Nat.mod_lt _ (by norm_num)
  rw [Nat.mod_eq_of_lt hv]
  apply val_ext _ hl _ hv
  intro j hj
  have htarget : (rotr32 (wordVal w) k).testBit j
      = (wordVal w).testBit ((j + k) % 32) := by
    rw [rotr32, Nat.testBit_mod_two_pow, Nat.testBit_or, Nat.testBit_shiftRight,
      Nat.testBit_shiftLeft]
    by_cases hcase : j + k < 32
    · have hmod : (j + k) % 32 = k + j := by omega
      rw [hmod]
      have h2 : ¬ (32 - k) ≤ j := by omega
      simp [hj, h2]
    · have hmod : (j + k) % 32 = j + k - 32 := by omega
      have hhi : (wordVal w).testBit (k + j) = false :=
        Nat.testBit_lt_two_pow
          (lt_of_lt_of_le hvw (Nat.pow_le_pow_right (by norm_num) (by omega)))
      have h2 : (32 - k) ≤ j := by omega
      rw [hmod]
      simp [hj, hhi, h2]
      congr 1
      omega
  rw [htarget, getD_reverse32 _ hl j hj]
  have hji : (j + k) % 32 < 32 := by omega
  rw [testBit_wordVal32 w hw _ hji]
  show (w.drop (w.length - k) ++ w.take (w.length - k)).getD (31 - j) false = _
  rw [hw]
  by_cases hcase : 31 - j < k
  · rw [getD_append_left _ _ _ _ (by simp [hw]; omega), getD_drop]
    congr 1
    omega
  · rw [getD_append_right _ _ _ _ (by simp [hw]; omega)]
    rw [List.length_drop, hw, getD_take _ _ _ _ (by omega)]
    congr 1
    omega

/-- `shift_right` computes the logical right shift of the word value, and its
top `k` positions are fresh zero constants. -/
theorem shift_right_spec (w : Word) (k : Nat) (hw : w.length = 32)
    (hk : k < 32) :
    shift_right w k = u32_to_bit (wordVal w >>> k) := by
  have hvw : wordVal w < 2 ^ 32 := by rw [← hw]; exact wordVal_lt w
  have hv : wordVal w >>> k < 2 ^ 32 := by
    rw [Nat.shiftRight_eq_div_pow]
    exact lt_of_le_of_lt (Nat.div_le_self _ _) hvw
  have hl : (shift_right w k).length = 32 := by
    simp [shift_right, hw]
    omega
  apply eq_u32_of_val hl
  rw [Nat.mod_eq_of_lt hv]
  apply val_ext _ hl _ hv
  intro j hj
  rw [getD_reverse32 _ hl j hj, Nat.testBit_shiftRight]
  show (List.replicate k false ++ w.take (w.length - k)).getD (31 - j) false = _
  rw [hw]
  by_cases hcase : 31 - j < k
  · rw [getD_append_left _ _ _ _ (by simp; omega), getD_replicate, if_pos hcase]
    exact (Nat.testBit_lt_two_pow
      (lt_of_lt_of_le hvw (Nat.pow_le_pow_right (by norm_num) (by omega)))).symm
  · rw [getD_append_right _ _ _ _ (by simp; omega), List.length_replicate,
      getD_take _ _ _ _ (by omega), testBit_wordVal32 w hw _ (by omega)]
    congr 1
    omega

theorem wordVal_u32_of_lt {v : Nat} (hv : v < 2 ^ 32) :
    wordVal (u32_to_bit v) = v := by
  rw [wordVal_u32_to_bit, Nat.mod_eq_of_lt hv]

theorem rotr32_lt (x k : Nat) : rotr32 x k < 2 ^ 32 := Nat.mod_lt _ (by norm_num)

theorem shr_lt {x : Nat} (k : Nat) (hx : x < 2 ^ 32) : x >>> k < 2 ^ 32 := by
  rw [Nat.shiftRight_eq_div_pow]
  exact lt_of_le_of_lt (Nat.div_le_self _ _) hx

theorem chN_lt {x y z : Nat} (hy : y < 2 ^ 32) (hz : z < 2 ^ 32) :
    chN x y z < 2 ^ 32 :=
  Nat.xor_lt_two_pow (Nat.and_lt_two_pow _ hy) (Nat.and_lt_two_pow _ hz)

theorem majN_lt {x y z : Nat} (hy : y < 2 ^ 32) (hz : z < 2 ^ 32) :
    majN x y z < 2 ^ 32 :=
  Nat.xor_lt_two_pow
    (Nat.xor_lt_two_pow (Nat.and_lt_two_pow _ hy) (Nat.and_lt_two_pow _ hz))
    (Nat.and_lt_two_pow _ hz)

theorem lsig0_lt {x : Nat} (hx : x < 2 ^ 32) : lsig0 x < 2 ^ 32 :=
  Nat.xor_lt_two_pow (Nat.xor_lt_two_pow (rotr32_lt _ _) (rotr32_lt _ _))
    (shr_lt _ hx)

theorem lsig1_lt {x : Nat} (hx : x < 2 ^ 32) : lsig1 x < 2 ^ 32 :=
  Nat.xor_lt_two_pow (Nat.xor_lt_two_pow (rotr32_lt _ _) (rotr32_lt _ _))
    (shr_lt _ hx)

theorem csig0_lt (x : Nat) : csig0 x < 2 ^ 32 :=
  Nat.xor_lt_two_pow (Nat.xor_lt_two_pow (rotr32_lt _ _) (rotr32_lt _ _))
    (rotr32_lt _ _)

theorem csig1_lt (x : Nat) : csig1 x < 2 ^ 32 :=
  Nat.xor_lt_two_pow (Nat.xor_lt_two_pow (rotr32_lt _ _) (rotr32_lt _ _))
    (rotr32_lt _ _)

theorem wordVal_lt32 (w : Word) (hw : w.length = 32) : wordVal w < 2 ^ 32 := by
  rw [← hw]
  exact wordVal_lt w

/-- `ch` computes the numeric `Ch`. -/
theorem ch_spec (x y z : Word) (hx : x.length = 32) (hy : y.length = 32)
    (hz : z.length = 32) :
    ch x y z = u32_to_bit (chN (wordVal x) (wordVal y) (wordVal z)) := by
  have hvy := wordVal_lt32 y hy
  have hvz := wordVal_lt32 z hz
  have hvx := wordVal_lt32 x hx
  have hmask : not32 (wordVal x) < 2 ^ 32 :=
    Nat.xor_lt_two_pow (by norm_num) hvx
  have h3 : and (not x) z = u32_to_bit (not32 (wordVal x) &&& wordVal z) := by
    rw [not_spec x hx, and_spec _ z (length_u32_to_bit _) hz,
      wordVal_u32_of_lt hmask]
  show xor (and x y) (and (not x) z) = _
  rw [and_spec x y hx hy, h3,
    xor_spec _ _ (length_u32_to_bit _) (length_u32_to_bit _),
    wordVal_u32_of_lt (Nat.and_lt_two_pow _ hvy),
    wordVal_u32_of_lt (Nat.and_lt_two_pow _ hvz)]
  rfl

/-- `maj` computes the numeric `Maj`. -/
theorem maj_spec (x y z : Word) (hx : x.length = 32) (hy : y.length = 32)
    (hz : z.length = 32) :
    maj x y z = u32_to_bit (majN (wordVal x) (wordVal y) (wordVal z)) := by
  have hvy := wordVal_lt32 y hy
  have hvz := wordVal_lt32 z hz
  show xor (xor (and x y) (and x z)) (and y z) = _
  rw [and_spec x y hx hy, and_spec x z hx hz, and_spec y z hy hz,
    xor_spec _ _ (length_u32_to_bit _) (length_u32_to_bit _),
    wordVal_u32_of_lt (Nat.and_lt_two_pow _ hvy),
    wordVal_u32_of_lt (Nat.and_lt_two_pow _ hvz),
    xor_spec _ _ (length_u32_to_bit _) (length_u32_to_bit _),
    wordVal_u32_of_lt (Nat.xor_lt_two_pow (Nat.and_lt_two_pow _ hvy)
      (Nat.and_lt_two_pow _ hvz)),
    wordVal_u32_of_lt (Nat.and_lt_two_pow _ hvz)]
  rfl

/-- `capital_sigma0` computes the numeric `Σ0`. -/
theorem capital_sigma0_spec (x : Word) (hx : x.length = 32) :
    capital_sigma0 x = u32_to_bit (csig0 (wordVal x)) := by
  show xor (xor (rotate_right x 2) (rotate_right x 13)) (rotate_right x 22) = _
  rw [rotate_right_spec x 2 hx (by norm_num),
    rotate_right_spec x 13 hx (by norm_num),
    rotate_right_spec x 22 hx (by norm_num),
    xor_spec _ _ (length_u32_to_bit _) (length_u32_to_bit _),
    wordVal_u32_of_lt (rotr32_lt _ _), wordVal_u32_of_lt (rotr32_lt _ _),
    xor_spec _ _ (length_u32_to_bit _) (length_u32_to_bit _),
    wordVal_u32_of_lt (Nat.xor_lt_two_pow (rotr32_lt _ _) (rotr32_lt _ _)),
    wordVal_u32_of_lt (rotr32_lt _ _)]
  rfl

/-- `capital_sigma1` computes the numeric `Σ1`. -/
theorem capital_sigma1_spec (x : Word) (hx : x.length = 32) :
    capital_sigma1 x = u32_to_bit (csig1 (wordVal x)) := by
  show xor (xor (rotate_right x 6) (rotate_right x 11)) (rotate_right x 25) = _
  rw [rotate_right_spec x 6 hx (by norm_num),
    rotate_right_spec x 11 hx (by norm_num),
    rotate_right_spec x 25 hx (by norm_num),
    xor_spec _ _ (length_u32_to_bit _) (length_u32_to_bit _),
    wordVal_u32_of_lt (rotr32_lt _ _), wordVal_u32_of_lt (rotr32_lt _ _),
    xor_spec _ _ (length_u32_to_bit _) (length_u32_to_bit _),
    wordVal_u32_of_lt (Nat.xor_lt_two_pow (rotr32_lt _ _) (rotr32_lt _ _)),
    wordVal_u32_of_lt (rotr32_lt _ _)]
  rfl

/-- `lower_case_sigma0` computes the numeric `σ0`. -/
theorem lower_case_sigma0_spec (x : Word) (hx : x.length = 32) :
    lower_case_sigma0 x = u32_to_bit (lsig0 (wordVal x)) := by
  have hvx := wordVal_lt32 x hx
  show xor (xor (rotate_right x 7) (rotate_right x 18)) (shift_right x 3) = _
  rw [rotate_right_spec x 7 hx (by norm_num),
    rotate_right_spec x 18 hx (by norm_num),
    shift_right_spec x 3 hx (by norm_num),
    xor_spec _ _ (length_u32_to_bit _) (length_u32_to_bit _),
    wordVal_u32_of_lt (rotr32_lt _ _), wordVal_u32_of_lt (rotr32_lt _ _),
    xor_spec _ _ (length_u32_to_bit _) (length_u32_to_bit _),
    wordVal_u32_of_lt (Nat.xor_lt_two_pow (rotr32_lt _ _) (rotr32_lt _ _)),
    wordVal_u32_of_lt (shr_lt _ hvx)]
  rfl

/-- `lower_case_sigma1` computes the numeric `σ1`. -/
theorem lower_case_sigma1_spec (x : Word) (hx : x.length = 32) :
    lower_case_sigma1 x = u32_to_bit (lsig1 (wordVal x)) := by
  have hvx := wordVal_lt32 x hx
  show xor (xor (rotate_right x 17) (rotate_right x 19)) (shift_right x 10) = _
  rw [rotate_right_spec x 17 hx (by norm_num),
    rotate_right_spec x 19 hx (by norm_num),
    shift_right_spec x 10 hx (by norm_num),
    xor_spec _ _ (length_u32_to_bit _) (length_u32_to_bit _),
    wordVal_u32_of_lt (rotr32_lt _ _), wordVal_u32_of_lt (rotr32_lt _ _),
    xor_spec _ _ (length_u32_to_bit _) (length_u32_to_bit _),
    wordVal_u32_of_lt (Nat.xor_lt_two_pow (rotr32_lt _ _) (rotr32_lt _ _)),
    wordVal_u32_of_lt (shr_lt _ hvx)]
  rfl

theorem add_csa3_fst_length (a b c : Word) : (add_csa3 a b c).1.length = 32 := by
  simp [add_csa3]

theorem add_csa3_snd_length (a b c : Word) : (add_csa3 a b c).2.length = 32 := by
  simp [add_csa3]

theorem valF_testBit (A : Nat) (hA : A < 2 ^ 32) :
    valF (fun j => A.testBit j) 32 = A := by
  apply Nat.eq_of_testBit_eq
  intro j
  rw [testBit_valF]
  by_cases h : j < 32
  · simp [h]
  · simp only [h, if_false]
    exact (Nat.testBit_lt_two_pow
      (lt_of_lt_of_le hA (Nat.pow_le_pow_right (by norm_num) (by omega)))).symm

/-- The carry-save identity at the level of numeric values. -/
theorem csa_nat_identity (A B C : Nat) (hA : A < 2 ^ 32) (hB : B < 2 ^ 32)
    (hC : C < 2 ^ 32) :
    A + B + C = ((A ^^^ B) ^^^ C)
      + 2 * (((A &&& B) ^^^ (B &&& C)) ^^^ (A &&& C)) := by
  have h := csa_valF (fun j => A.testBit j) (fun j => B.testBit j)
    (fun j => C.testBit j) 32
  rw [valF_testBit A hA, valF_testBit B hB, valF_testBit C hC] at h
  rw [h]
  rw [show (fun i => Bool.xor (Bool.xor (A.testBit i) (B.testBit i)) (C.testBit i))
      = fun i => Bool.xor
        ((fun j => Bool.xor (A.testBit j) (B.testBit j)) i)
        ((fun j => C.testBit j) i) from rfl, valF_xor, valF_xor]
  rw [show (fun i => Bool.xor
        (Bool.xor (A.testBit i && B.testBit i) (B.testBit i && C.testBit i))
        (A.testBit i && C.testBit i))
      = fun i => Bool.xor
        ((fun j => Bool.xor ((fun l => A.testBit l && B.testBit l) j)
          ((fun l => B.testBit l && C.testBit l) j)) i)
        ((fun j => A.testBit j && C.testBit j) i) from rfl,
    valF_xor, valF_xor, valF_and, valF_and, valF_and]
  rw [valF_testBit A hA, valF_testBit B hB, valF_testBit C hC]

/-- The two `add_csa3` outputs sum to `a + b + c` mod `2^32`. -/
theorem add_csa3_val (a b c : Word) (ha : a.length = 32) (hb : b.length = 32)
    (hc : c.length = 32) :
    (wordVal (add_csa3 a b c).1 + wordVal (add_csa3 a b c).2) % 2 ^ 32
      = (wordVal a + wordVal b + wordVal c) % 2 ^ 32 := by
  have hva := wordVal_lt32 a ha
  have hvb := wordVal_lt32 b hb
  have hvc := wordVal_lt32 c hc
  have hid := csa_nat_identity (wordVal a) (wordVal b) (wordVal c) hva hvb hvc
  rw [add_csa3_fst a b c ha hb hc, add_csa3_snd a b c ha hb hc,
    wordVal_u32_of_lt (Nat.xor_lt_two_pow (Nat.xor_lt_two_pow hva hvb) hvc),
    wordVal_u32_to_bit]
  omega

/-- The CSA/Wallace-tree formulation of one compression round is
bit-identical to the spec's direct-sum formulation. -/
theorem compress_round_spec (wa wb wc wd we wf wg wh wi : Word) (ki : Nat)
    (ha : wa.length = 32) (hb : wb.length = 32) (hc : wc.length = 32)
    (hd : wd.length = 32) (he : we.length = 32) (hf : wf.length = 32)
    (hg : wg.length = 32) (hh : wh.length = 32) (hwi : wi.length = 32) :
    compress_round (wa, wb, wc, wd, we, wf, wg, wh) wi ki
      = map8 (round_direct (val8 (wa, wb, wc, wd, we, wf, wg, wh))
          (wordVal wi) ki) := by
  simp only [compress_round, val8, round_direct, map8]
  set wk := add_const wi ki with hwk
  set cs1e := capital_sigma1 we with hcs1
  set chefg := ch we wf wg with hch
  set cs0a := capital_sigma0 wa with hcs0
  set majabc := maj wa wb wc with hmaj
  set s1 := add_csa3 wh wk cs1e with hs1
  set s2 := add_csa3 chefg cs0a majabc with hs2
  set s3 := add_csa3 s1.1 s1.2 s2.1 with hs3
  set s4 := add_csa3 s3.1 s3.2 s2.2 with hs4
  set s5a := add_csa3 wd chefg s1.1 with hs5a
  set s5b := add_csa3 s1.2 s5a.1 s5a.2 with hs5b
  have hwkv : wordVal wk = (wordVal wi + ki) % 2 ^ 32 := by
    rw [hwk, add_const_spec wi ki hwi,
      wordVal_u32_of_lt (Nat.mod_lt _ (by norm_num))]
  have hlwk : wk.length = 32 := by
    rw [hwk, add_const_spec wi ki hwi]
    exact length_u32_to_bit _
  have hcs1v : wordVal cs1e = csig1 (wordVal we) := by
    rw [hcs1, capital_sigma1_spec we he, wordVal_u32_of_lt (csig1_lt _)]
  have hlcs1 : cs1e.length = 32 := by
    rw [hcs1, capital_sigma1_spec we he]
    exact length_u32_to_bit _
  have hchv : wordVal chefg = chN (wordVal we) (wordVal wf) (wordVal wg) := by
    rw [hch, ch_spec we wf wg he hf hg,
      wordVal_u32_of_lt (chN_lt (wordVal_lt32 wf hf) (wordVal_lt32 wg hg))]
  have hlch : chefg.length = 32 := by
    rw [hch, ch_spec we wf wg he hf hg]
    exact length_u32_to_bit _
  have hcs0v : wordVal cs0a = csig0 (wordVal wa) := by
    rw [hcs0, capital_sigma0_spec wa ha, wordVal_u32_of_lt (csig0_lt _)]
  have hlcs0 : cs0a.length = 32 := by
    rw [hcs0, capital_sigma0_spec wa ha]
    exact length_u32_to_bit _
  have hmajv : wordVal majabc = majN (wordVal wa) (wordVal wb) (wordVal wc) := by
    rw [hmaj, maj_spec wa wb wc ha hb hc,
      wordVal_u32_of_lt (majN_lt (wordVal_lt32 wb hb) (wordVal_lt32 wc hc))]
  have hlmaj : majabc.length = 32 := by
    rw [hmaj, maj_spec wa wb wc ha hb hc]
    exact length_u32_to_bit _
  have l1f : s1.1.length = 32 := by rw [hs1]; exact add_csa3_fst_length _ _ _
  have l1c : s1.2.length = 32 := by rw [hs1]; exact add_csa3_snd_length _ _ _
  have l2f : s2.1.length = 32 := by rw [hs2]; exact add_csa3_fst_length _ _ _
  have l2c : s2.2.length = 32 := by rw [hs2]; exact add_csa3_snd_length _ _ _
  have l3f : s3.1.length = 32 := by rw [hs3]; exact add_csa3_fst_length _ _ _
  have l3c : s3.2.length = 32 := by rw [hs3]; exact add_csa3_snd_length _ _ _
  have l4f : s4.1.length = 32 := by rw [hs4]; exact add_csa3_fst_length _ _ _
  have l4c : s4.2.length = 32 := by rw [hs4]; exact add_csa3_snd_length _ _ _
  have l5af : s5a.1.length = 32 := by rw [hs5a]; exact add_csa3_fst_length _ _ _
  have l5ac : s5a.2.length = 32 := by rw [hs5a]; exact add_csa3_snd_length _ _ _
  have l5bf : s5b.1.length = 32 := by rw [hs5b]; exact add_csa3_fst_length _ _ _
  have l5bc : s5b.2.length = 32 := by rw [hs5b]; exact add_csa3_snd_length _ _ _
  have hv1 := add_csa3_val wh wk cs1e hh hlwk hlcs1
  rw [← hs1, hwkv, hcs1v] at hv1
  have hv2 := add_csa3_val chefg cs0a majabc hlch hlcs0 hlmaj
  rw [← hs2, hchv, hcs0v, hmajv] at hv2
  have hv3 := add_csa3_val s1.1 s1.2 s2.1 l1f l1c l2f
  rw [← hs3] at hv3
  have hv4 := add_csa3_val s3.1 s3.2 s2.2 l3f l3c l2c
  rw [← hs4] at hv4
  have hv5 := add_csa3_val wd chefg s1.1 hd hlch l1f
  rw [← hs5a, hchv] at hv5
  have hv6 := add_csa3_val s1.2 s5a.1 s5a.2 l1c l5af l5ac
  rw [← hs5b] at hv6
  have ht2 : add s4.1 s4.2
      = u32_to_bit ((wordVal s4.1 + wordVal s4.2) % 2 ^ 32) :=
    add_spec _ _ l4f l4c
  have ht1 : add s5b.1 s5b.2
      = u32_to_bit ((wordVal s5b.1 + wordVal s5b.2) % 2 ^ 32) :=
    add_spec _ _ l5bf l5bc
  simp only [Prod.mk.injEq]
  refine ⟨?_, ?_, ?_, ?_, ?_, ?_, ?_, ?_⟩
  · rw [ht2]
    exact congrArg u32_to_bit (by omega)
  · exact (u32_to_bit_wordVal ha).symm
  · exact (u32_to_bit_wordVal hb).symm
  · exact (u32_to_bit_wordVal hc).symm
  · rw [ht1]
    exact congrArg u32_to_bit (by omega)
  · exact (u32_to_bit_wordVal he).symm
  · exact (u32_to_bit_wordVal hf).symm
  · exact (u32_to_bit_wordVal hg).symm

theorem foldl_rel {α β γ : Type} (R : α → β → Prop) (f : α → γ → α)
    (g : β → γ → β) :
    ∀ (l : List γ) (a : α) (b : β), R a b →
      (∀ x y c, c ∈ l → R x y → R (f x c) (g y c)) →
      R (l.foldl f a) (l.foldl g b) := by
  intro l
  induction l with
  | nil => intro a b hab _; exact hab
  | cons c t ih =>
    intro a b hab hstep
    exact ih (f a c) (g b c) (hstep a b c (by simp) hab)
      (fun x y e he hxy => hstep x y e (by simp [he]) hxy)

theorem foldl_rel2 {α β γ δ : Type} (R : α → β → Prop) (S : γ → δ → Prop)
    (f : α → γ → α) (g : β → δ → β) :
    ∀ (l1 : List γ) (l2 : List δ), List.Forall₂ S l1 l2 →
      ∀ (a : α) (b : β), R a b →
      (∀ x y c d, S c d → R x y → R (f x c) (g y d)) →
      R (l1.foldl f a) (l2.foldl g b) := by
  intro l1
  induction l1 with
  | nil =>
    intro l2 hall a b hab _
    cases hall
    exact hab
  | cons c t ih =>
    intro l2 hall a b hab hstep
    cases hall with
    | cons hcd htail =>
      exact ih _ htail _ _ (hstep a b _ _ hcd hab) hstep

theorem mem_getD {α : Type} (l : List α) (i : Nat) (d : α) (h : i < l.length) :
    l.getD i d ∈ l := by
  rw [List.getD_eq_getElem?_getD, List.getElem?_eq_getElem h]
  exact List.getElem_mem h

theorem zip_map_forall₂ (K : List Nat) : ∀ (vs : List Nat),
    (∀ v ∈ vs, v < 2 ^ 32) →
    List.Forall₂ (fun (wk : Word × Nat) (vk : Nat × Nat) =>
        wk.1 = u32_to_bit vk.1 ∧ vk.1 < 2 ^ 32 ∧ wk.2 = vk.2)
      ((vs.map u32_to_bit).zip K) (vs.zip K) := by
  induction K with
  | nil =>
    intro vs _
    simp [List.zip_nil_right]
  | cons k tk ih =>
    intro vs hvs
    cases vs with
    | nil => exact List.Forall₂.nil
    | cons v tv =>
      refine List.Forall₂.cons ⟨rfl, hvs v (by simp), rfl⟩ ?_
      exact ih tv (fun x hx => hvs x (by simp [hx]))

/-- The bit-level message schedule is the `u32_to_bit` image of the numeric
schedule, whose entries are all 32-bit values, 64 of them. -/
theorem schedule_w_spec (input : List Bool) (hin : input.length = 512) :
    schedule_w input = (schedule_w_vals input).map u32_to_bit
    ∧ (∀ v ∈ schedule_w_vals input, v < 2 ^ 32)
    ∧ (schedule_w_vals input).length = 64 := by
  have hchunk : ∀ i, i < 16 → ((input.drop (32 * i)).take 32).length = 32 := by
    intro i hi
    simp [hin]
    omega
  have hbase : (List.range 16).map (fun i => (input.drop (32 * i)).take 32)
      = ((List.range 16).map fun i => wordVal ((input.drop (32 * i)).take 32)).map
          u32_to_bit := by
    rw [List.map_map]
    apply List.ext_getElem (by simp)
    intro i h1 h2
    simp only [List.getElem_map, List.getElem_range, Function.comp]
    rw [u32_to_bit_wordVal (hchunk i (by simpa using h1))]
  have hstep : ∀ (ws : List Word) (vs : List Nat), (c : Nat) → c ∈ List.range 48 →
      (ws = vs.map u32_to_bit ∧ (∀ v ∈ vs, v < 2 ^ 32) ∧ 16 ≤ vs.length) →
      ((ws ++ [add (add (lower_case_sigma1 (ws.getD (ws.length - 2) []))
                  (ws.getD (ws.length - 7) []))
              (add (lower_case_sigma0 (ws.getD (ws.length - 15) []))
                  (ws.getD (ws.length - 16) []))])
        = (vs ++ [((lsig1 (vs.getD (vs.length - 2) 0) + vs.getD (vs.length - 7) 0) % 2 ^ 32
            + (lsig0 (vs.getD (vs.length - 15) 0) + vs.getD (vs.length - 16) 0) % 2 ^ 32)
            % 2 ^ 32]).map u32_to_bit
        ∧ (∀ v ∈ vs ++ [((lsig1 (vs.getD (vs.length - 2) 0) + vs.getD (vs.length - 7) 0) % 2 ^ 32
            + (lsig0 (vs.getD (vs.length - 15) 0) + vs.getD (vs.length - 16) 0) % 2 ^ 32)
            % 2 ^ 32], v < 2 ^ 32)
        ∧ 16 ≤ (vs ++ [((lsig1 (vs.getD (vs.length - 2) 0) + vs.getD (vs.length - 7) 0) % 2 ^ 32
            + (lsig0 (vs.getD (vs.length - 15) 0) + vs.getD (vs.length - 16) 0) % 2 ^ 32)
            % 2 ^ 32]).length) := by
    intro ws vs c _ hR
    obtain ⟨hmap, hbnd, hlen16⟩ := hR
    have hlenv : ws.length = vs.length := by rw [hmap]; simp
    have hb2 : vs.getD (vs.length - 2) 0 < 2 ^ 32 :=
      hbnd _ (mem_getD _ _ _ (by omega))
    have hb7 : vs.getD (vs.length - 7) 0 < 2 ^ 32 :=
      hbnd _ (mem_getD _ _ _ (by omega))
    have hb15 : vs.getD (vs.length - 15) 0 < 2 ^ 32 :=
      hbnd _ (mem_getD _ _ _ (by omega))
    have hb16 : vs.getD (vs.length - 16) 0 < 2 ^ 32 :=
      hbnd _ (mem_getD _ _ _ (by omega))
    have hget : ∀ j, 0 < j → j ≤ 16 →
        ws.getD (ws.length - j) [] = u32_to_bit (vs.getD (vs.length - j) 0) := by
      intro j hj0 hj16
      rw [hmap, List.length_map]
      exact getD_map _ _ _ _ 0 (by omega)
    have helem : add (add (lower_case_sigma1 (ws.getD (ws.length - 2) []))
          (ws.getD (ws.length - 7) []))
        (add (lower_case_sigma0 (ws.getD (ws.length - 15) []))
          (ws.getD (ws.length - 16) []))
        = u32_to_bit
          (((lsig1 (vs.getD (vs.length - 2) 0) + vs.getD (vs.length - 7) 0) % 2 ^ 32
            + (lsig0 (vs.getD (vs.length - 15) 0) + vs.getD (vs.length - 16) 0) % 2 ^ 32)
            % 2 ^ 32) := by
      rw [hget 2 (by omega) (by omega), hget 7 (by omega) (by omega),
        hget 15 (by omega) (by omega), hget 16 (by omega) (by omega),
        lower_case_sigma1_spec _ (length_u32_to_bit _),
        lower_case_sigma0_spec _ (length_u32_to_bit _),
        wordVal_u32_of_lt hb2, wordVal_u32_of_lt hb15,
        add_spec _ _ (length_u32_to_bit _) (length_u32_to_bit _),
        wordVal_u32_of_lt (lsig1_lt hb2), wordVal_u32_of_lt hb7,
        add_spec _ _ (length_u32_to_bit _) (length_u32_to_bit _),
        wordVal_u32_of_lt (lsig0_lt hb15), wordVal_u32_of_lt hb16,
        add_spec _ _ (length_u32_to_bit _) (length_u32_to_bit _),
        wordVal_u32_of_lt (Nat.mod_lt _ (by norm_num)),
        wordVal_u32_of_lt (Nat.mod_lt _ (by norm_num))]
    refine ⟨?_, ?_, by simp; omega⟩
    · rw [helem, hmap, List.map_append]
      rfl
    · intro v hv
      rw [List.mem_append] at hv
      rcases hv with hv | hv
      · exact hbnd v hv
      · simp only [List.mem_singleton] at hv
        subst hv
        exact Nat.mod_lt _ (by norm_num)
  have hrel := foldl_rel
    (fun (ws : List Word) (vs : List Nat) =>
      ws = vs.map u32_to_bit ∧ (∀ v ∈ vs, v < 2 ^ 32) ∧ 16 ≤ vs.length)
    _ _ (List.range 48)
    ((List.range 16).map fun i => (input.drop (32 * i)).take 32)
    ((List.range 16).map fun i => wordVal ((input.drop (32 * i)).take 32))
    ⟨hbase, by
      intro v hv
      simp only [List.mem_map] at hv
      obtain ⟨i, hi, rfl⟩ := hv
      exact wordVal_lt32 _ (hchunk i (by simpa using hi)), by simp⟩
    hstep
  refine ⟨hrel.1, hrel.2.1, ?_⟩
  have hlen : ∀ (n : Nat) (l : List Nat),
      ((List.range n).foldl (fun (w : List Nat) (_ : Nat) =>
        w ++ [((lsig1 (w.getD (w.length - 2) 0) + w.getD (w.length - 7) 0) % 2 ^ 32
            + (lsig0 (w.getD (w.length - 15) 0) + w.getD (w.length - 16) 0) % 2 ^ 32)
            % 2 ^ 32]) l).length = l.length + n := by
    intro n
    induction n with
    | zero => intro l; rfl
    | succ n ih =>
      intro l
      rw [List.range_succ, List.foldl_append]
      have hx := ih l
      simp only [List.foldl_cons, List.foldl_nil, List.length_append,
        List.length_cons, List.length_nil]
      omega
  have h64 := hlen 48 ((List.range 16).map fun i =>
    wordVal ((input.drop (32 * i)).take 32))
  show (schedule_w_vals input).length = 64
  rw [schedule_w_vals, h64]
  simp

theorem round_direct_bounds (sv : NStates) (wi ki : Nat) (hb : bounds8 sv) :
    bounds8 (round_direct sv wi ki) := by
  obtain ⟨A, B, C, D, E, F, G, H⟩ := sv
  obtain ⟨hA, hB, hC, hD, hE, hF, hG, hH⟩ := hb
  simp only [round_direct, bounds8]
  exact ⟨Nat.mod_lt _ (by norm_num), hA, hB, hC,
    Nat.mod_lt _ (by norm_num), hE, hF, hG⟩

/-- The full bit-level compression function is the `u32_to_bit` image of the
numeric compression, and the numeric result stays within 32 bits. -/
theorem sha256_compress_spec (sv : NStates) (input : List Bool)
    (hin : input.length = 512) (hb : bounds8 sv) :
    sha256_compress (map8 sv) input = map8 (compressN sv input)
    ∧ bounds8 (compressN sv input) := by
  obtain ⟨hsched, hbw, _⟩ := schedule_w_spec input hin
  have hstep : ∀ (x : States) (y : NStates) (c : Word × Nat) (d : Nat × Nat),
      (c.1 = u32_to_bit d.1 ∧ d.1 < 2 ^ 32 ∧ c.2 = d.2) →
      (x = map8 y ∧ bounds8 y) →
      (compress_round x c.1 c.2 = map8 (round_direct y d.1 d.2)
        ∧ bounds8 (round_direct y d.1 d.2)) := by
    intro x y c d hcd hxy
    obtain ⟨hc1, hd1, hc2⟩ := hcd
    obtain ⟨hx, hby⟩ := hxy
    obtain ⟨A, B, C, D, E, F, G, H⟩ := y
    obtain ⟨hA, hB, hC, hD, hE, hF, hG, hH⟩ := hby
    subst hx
    refine ⟨?_, round_direct_bounds _ _ _ ⟨hA, hB, hC, hD, hE, hF, hG, hH⟩⟩
    simp only [map8]
    rw [hc1, hc2, compress_round_spec _ _ _ _ _ _ _ _ _ d.2
      (length_u32_to_bit _) (length_u32_to_bit _) (length_u32_to_bit _)
      (length_u32_to_bit _) (length_u32_to_bit _) (length_u32_to_bit _)
      (length_u32_to_bit _) (length_u32_to_bit _) (length_u32_to_bit _)]
    simp only [val8, wordVal_u32_of_lt hA, wordVal_u32_of_lt hB,
      wordVal_u32_of_lt hC, wordVal_u32_of_lt hD, wordVal_u32_of_lt hE,
      wordVal_u32_of_lt hF, wordVal_u32_of_lt hG, wordVal_u32_of_lt hH,
      wordVal_u32_of_lt hd1]
    rfl
  have hfold := foldl_rel2
    (fun (st : States) (stv : NStates) => st = map8 stv ∧ bounds8 stv)
    (fun (wk : Word × Nat) (vk : Nat × Nat) =>
      wk.1 = u32_to_bit vk.1 ∧ vk.1 < 2 ^ 32 ∧ wk.2 = vk.2)
    (fun s wk => compress_round s wk.1 wk.2)
    (fun s wk => round_direct s wk.1 wk.2)
    (((schedule_w_vals input).map u32_to_bit).zip SHA256_K)
    ((schedule_w_vals input).zip SHA256_K)
    (zip_map_forall₂ SHA256_K _ hbw)
    (map8 sv) sv ⟨rfl, hb⟩ hstep
  rw [← hsched] at hfold
  obtain ⟨hfoldeq, hfoldb⟩ := hfold
  obtain ⟨hr1, hr2, hr3, hr4, hr5, hr6, hr7, hr8⟩ := hfoldb
  obtain ⟨hs1, hs2, hs3, hs4, hs5, hs6, hs7, hs8⟩ := hb
  constructor
  · simp only [sha256_compress, compressN]
    rw [hfoldeq]
    simp only [map8, Prod.mk.injEq]
    refine ⟨?_, ?_, ?_, ?_, ?_, ?_, ?_, ?_⟩
    · rw [add_spec _ _ (length_u32_to_bit _) (length_u32_to_bit _),
        wordVal_u32_of_lt hs1, wordVal_u32_of_lt hr1]
    · rw [add_spec _ _ (length_u32_to_bit _) (length_u32_to_bit _),
        wordVal_u32_of_lt hs2, wordVal_u32_of_lt hr2]
    · rw [add_spec _ _ (length_u32_to_bit _) (length_u32_to_bit _),
        wordVal_u32_of_lt hs3, wordVal_u32_of_lt hr3]
    · rw [add_spec _ _ (length_u32_to_bit _) (length_u32_to_bit _),
        wordVal_u32_of_lt hs4, wordVal_u32_of_lt hr4]
    · rw [add_spec _ _ (length_u32_to_bit _) (length_u32_to_bit _),
        wordVal_u32_of_lt hs5, wordVal_u32_of_lt hr5]
    · rw [add_spec _ _ (length_u32_to_bit _) (length_u32_to_bit _),
        wordVal_u32_of_lt hs6, wordVal_u32_of_lt hr6]
    · rw [add_spec _ _ (length_u32_to_bit _) (length_u32_to_bit _),
        wordVal_u32_of_lt hs7, wordVal_u32_of_lt hr7]
    · rw [add_spec _ _ (length_u32_to_bit _) (length_u32_to_bit _),
        wordVal_u32_of_lt hs8, wordVal_u32_of_lt hr8]
  · simp only [compressN, bounds8]
    exact ⟨Nat.mod_lt _ (by norm_num), Nat.mod_lt _ (by norm_num),
      Nat.mod_lt _ (by norm_num), Nat.mod_lt _ (by norm_num),
      Nat.mod_lt _ (by norm_num), Nat.mod_lt _ (by norm_num),
      Nat.mod_lt _ (by norm_num), Nat.mod_lt _ (by norm_num)⟩

theorem length_u64_to_bit (v : Nat) : (u64_to_bit v).length = 64 := by
  simp [u64_to_bit]

/-- When the zero-run length does not underflow, the padded buffer length is
the next multiple of 512. -/
theorem padBits_length (l : List Bool) (h : (l.length + 1) % 512 ≤ 448) :
    (padBits l).length = 512 * ((l.length + 1) / 512 + 1)
    ∧ (padBits l).length % 512 = 0 := by
  have hlen : (padBits l).length
      = l.length + 1 + (448 - (l.length + 1) % 512) + 64 := by
    simp [padBits, length_u64_to_bit]
    omega
  have hd := Nat.div_add_mod (l.length + 1) 512
  constructor
  · omega
  · omega

theorem chunks512_go_forall_length : ∀ (fuel : Nat) (l : List Bool),
    ∀ c ∈ chunks512_go fuel l, c.length = 512 := by
  intro fuel
  induction fuel with
  | zero =>
    intro l c hc
    exact absurd hc (List.not_mem_nil c)
  | succ fuel ih =>
    intro l c hc
    rw [chunks512_go] at hc
    by_cases h512 : 512 ≤ l.length
    · rw [if_pos h512] at hc
      rcases List.mem_cons.mp hc with hc | hc
      · subst hc
        simp
        omega
      · exact ih (l.drop 512) c hc
    · rw [if_neg h512] at hc
      exact absurd hc (List.not_mem_nil c)

theorem chunks512_forall_length (l : List Bool) :
    ∀ c ∈ chunks512 l, c.length = 512 :=
  chunks512_go_forall_length l.length l

theorem digest_bits_map8 (sv : NStates) :
    digest_bits (map8 sv)
      = ([sv.1, sv.2.1, sv.2.2.1, sv.2.2.2.1, sv.2.2.2.2.1, sv.2.2.2.2.2.1,
          sv.2.2.2.2.2.2.1, sv.2.2.2.2.2.2.2].map u32_to_bit).flatten := by
  simp [digest_bits, map8, List.append_assoc]

/-- `finalize` on a buffer whose zero-run length does not underflow returns
the `u32_to_bit` image of the 8 numeric digest words, and the engine whose
buffer now holds the padded message. -/
theorem finalize_spec (msg : List Bool) (hok : (msg.length + 1) % 512 ≤ 448) :
    SHA256GF2.finalize ⟨msg⟩
      = some (((finalize_vals msg).map u32_to_bit).flatten, ⟨padBits msg⟩) := by
  have hmem := chunks512_forall_length (padBits msg)
  have hfold := foldl_rel
    (fun (st : States) (sv : NStates) => st = map8 sv ∧ bounds8 sv)
    sha256_compress compressN (chunks512 (padBits msg))
    init_state init_state_vals
    ⟨rfl, by simp only [bounds8, init_state_vals]; norm_num⟩
    (fun x y c hc hxy => by
      obtain ⟨hx, hby⟩ := hxy
      have hs := sha256_compress_spec y c (hmem c hc) hby
      exact ⟨by rw [hx, hs.1], hs.2⟩)
  obtain ⟨hfe, _⟩ := hfold
  simp only [SHA256GF2.finalize]
  rw [if_pos hok]
  rw [hfe, digest_bits_map8]
  simp only [finalize_vals]

theorem sumF_congr (f g : Nat → Nat) (n : Nat) (h : ∀ i, i < n → f i = g i) :
    sumF f n = sumF g n := by
  induction n with
  | zero => rfl
  | succ n ih =>
    simp only [sumF]
    rw [ih (fun i hi => h i (by omega)), h n (by omega)]

theorem sumF_modeq (f g : Nat → Nat) (M n : Nat)
    (h : ∀ i, i < n → f i ≡ g i [MOD M]) : sumF f n ≡ sumF g n [MOD M] := by
  induction n with
  | zero => rfl
  | succ n ih =>
    simp only [sumF]
    exact Nat.ModEq.add (ih (fun i hi => h i (by omega))) (h n (by omega))

theorem sumF_split (f : Nat → Nat) (a : Nat) :
    ∀ b, sumF f (a + b) = sumF f a + sumF (fun i => f (a + i)) b := by
  intro b
  induction b with
  | zero => simp [sumF]
  | succ b ih =>
    show sumF f (a + b + 1) = _
    simp only [sumF]
    omega

theorem sumF_add_distrib (f g : Nat → Nat) (n : Nat) :
    sumF (fun i => f i + g i) n = sumF f n + sumF g n := by
  induction n with
  | zero => rfl
  | succ n ih =>
    simp only [sumF]
    omega

theorem getD_range (L i : Nat) (h : i < L) : (List.range L).getD i 0 = i := by
  rw [List.getD_eq_getElem?_getD, List.getElem?_eq_getElem (by simpa using h)]
  simp

theorem getD_set_ne {α : Type} (l : List α) (n i : Nat) (a d : α)
    (h : i ≠ n) : (l.set n a).getD i d = l.getD i d := by
  simp only [List.getD_eq_getElem?_getD]
  rw [List.getElem?_set_ne (by omega)]

theorem getD_set_self {α : Type} (l : List α) (n : Nat) (a d : α)
    (h : n < l.length) : (l.set n a).getD n d = a := by
  simp only [List.getD_eq_getElem?_getD]
  rw [List.getElem?_set_self h]
  simp

/-- Each pass of the `sum_all` reduction preserves the list length, the word
width, and—modulo `2^32`—the sum of the first `n` word values, leaving that
sum at index 0. -/
theorem sum_all_loop_spec : ∀ (fuel : Nat) (vvs : List Word) (n : Nat),
    n ≤ fuel → 0 < n → n ≤ vvs.length → (∀ w ∈ vvs, w.length = 32) →
    (sum_all_go fuel vvs n).length = vvs.length
    ∧ (∀ w ∈ sum_all_go fuel vvs n, w.length = 32)
    ∧ wordVal ((sum_all_go fuel vvs n).getD 0 [])
        ≡ sumF (fun i => wordVal (vvs.getD i [])) n [MOD 2 ^ 32] := by
  intro fuel
  induction fuel with
  | zero =>
    intro vvs n hf hp _ _
    omega
  | succ fuel ih =>
    intro vvs n hf hp hn h32
    by_cases h1 : 1 < n
    · rw [sum_all_go, if_pos h1]
      set vvs1 := (List.range vvs.length).map (fun i =>
        if i < n / 2 then add (vvs.getD i []) (vvs.getD (i + n / 2) [])
        else vvs.getD i []) with hv1
      set vvs2 := if n % 2 ≠ 0 then vvs1.set (n / 2) (vvs1.getD (n - 1) [])
        else vvs1 with hv2
      have hL1 : vvs1.length = vvs.length := by rw [hv1]; simp
      have hv1getD : ∀ i, i < vvs.length → vvs1.getD i []
          = if i < n / 2 then add (vvs.getD i []) (vvs.getD (i + n / 2) [])
            else vvs.getD i [] := by
        intro i hiL
        rw [hv1, getD_map _ _ i [] 0 (by simpa using hiL), getD_range _ _ hiL]
      have h32v1 : ∀ w ∈ vvs1, w.length = 32 := by
        intro w hw
        rw [hv1] at hw
        simp only [List.mem_map, List.mem_range] at hw
        obtain ⟨i, hi, rfl⟩ := hw
        by_cases hhalf : i < n / 2
        · rw [if_pos hhalf]
          exact add_length _ _ (h32 _ (mem_getD _ _ _ hi))
            (h32 _ (mem_getD _ _ _ (by omega)))
        · rw [if_neg hhalf]
          exact h32 _ (mem_getD _ _ _ hi)
      have hL2 : vvs2.length = vvs.length := by
        rw [hv2]
        by_cases hodd : n % 2 ≠ 0
        · rw [if_pos hodd]
          simp [hL1]
        · rw [if_neg hodd]
          exact hL1
      have h32v2 : ∀ w ∈ vvs2, w.length = 32 := by
        intro w hw
        rw [hv2] at hw
        by_cases hodd : n % 2 ≠ 0
        · rw [if_pos hodd] at hw
          rcases List.mem_or_eq_of_mem_set hw with hw | hw
          · exact h32v1 w hw
          · subst hw
            exact h32v1 _ (mem_getD _ _ _ (by omega))
        · rw [if_neg hodd] at hw
          exact h32v1 w hw
      have hrec := ih vvs2 ((n + 1) / 2) (by omega) (by omega) (by omega) h32v2
      have hval1 : ∀ i, i < n / 2 → wordVal (vvs2.getD i [])
          = (wordVal (vvs.getD i []) + wordVal (vvs.getD (i + n / 2) []))
            % 2 ^ 32 := by
        intro i hi
        have hiL : i < vvs.length := by omega
        have hgd2 : vvs2.getD i [] = vvs1.getD i [] := by
          rw [hv2]
          by_cases hodd : n % 2 ≠ 0
          · rw [if_pos hodd]
            exact getD_set_ne _ _ _ _ _ (by omega)
          · rw [if_neg hodd]
        rw [hgd2, hv1getD i hiL, if_pos hi]
        exact wordVal_add _ _ (h32 _ (mem_getD _ _ _ hiL))
          (h32 _ (mem_getD _ _ _ (by omega)))
      have hsum2 : sumF (fun i => wordVal (vvs2.getD i [])) (n / 2)
          ≡ sumF (fun i => wordVal (vvs.getD i [])) (n / 2 + n / 2)
            [MOD 2 ^ 32] := by
        have hm : sumF (fun i => wordVal (vvs2.getD i [])) (n / 2)
            ≡ sumF (fun i => wordVal (vvs.getD i [])
                + wordVal (vvs.getD (i + n / 2) [])) (n / 2) [MOD 2 ^ 32] := by
          apply sumF_modeq
          intro i hi
          rw [hval1 i hi]
          exact Nat.mod_modEq _ _
        have hsp : sumF (fun i => wordVal (vvs.getD i [])) (n / 2 + n / 2)
            = sumF (fun i => wordVal (vvs.getD i [])) (n / 2)
              + sumF (fun i => wordVal (vvs.getD (n / 2 + i) [])) (n / 2) :=
          sumF_split _ _ _
        have hdist : sumF (fun i => wordVal (vvs.getD i [])
              + wordVal (vvs.getD (i + n / 2) [])) (n / 2)
            = sumF (fun i => wordVal (vvs.getD i [])) (n / 2)
              + sumF (fun i => wordVal (vvs.getD (i + n / 2) [])) (n / 2) :=
          sumF_add_distrib _ _ _
        have hcomm : sumF (fun i => wordVal (vvs.getD (i + n / 2) [])) (n / 2)
            = sumF (fun i => wordVal (vvs.getD (n / 2 + i) [])) (n / 2) := by
          apply sumF_congr
          intro i _
          rw [Nat.add_comm]
        rw [hsp, ← hcomm, ← hdist]
        exact hm
      refine ⟨hrec.1.trans hL2, hrec.2.1, ?_⟩
      refine hrec.2.2.trans ?_
      by_cases hodd : n % 2 = 0
      · have hn' : (n + 1) / 2 = n / 2 := by omega
        have hnn : n / 2 + n / 2 = n := by omega
        rw [hn']
        rw [hnn] at hsum2
        exact hsum2
      · have hn' : (n + 1) / 2 = n / 2 + 1 := by omega
        have hval2 : wordVal (vvs2.getD (n / 2) [])
            = wordVal (vvs.getD (n - 1) []) := by
          rw [hv2, if_pos (by omega), getD_set_self _ _ _ _ (by omega),
            hv1getD (n - 1) (by omega), if_neg (by omega)]
        have hlast : sumF (fun i => wordVal (vvs.getD i [])) n
            = sumF (fun i => wordVal (vvs.getD i [])) (n / 2 + n / 2)
              + wordVal (vvs.getD (n - 1) []) := by
          have hnn : n = (n / 2 + n / 2) + 1 := by omega
          calc sumF (fun i => wordVal (vvs.getD i [])) n
              = sumF (fun i => wordVal (vvs.getD i [])) ((n / 2 + n / 2) + 1) := by
                rw [← hnn]
            _ = sumF (fun i => wordVal (vvs.getD i [])) (n / 2 + n / 2)
                + wordVal (vvs.getD (n / 2 + n / 2) []) := rfl
            _ = _ := by rw [show n / 2 + n / 2 = n - 1 from by omega]
        rw [hn', hlast]
        show sumF (fun i => wordVal (vvs2.getD i [])) (n / 2)
            + wordVal (vvs2.getD (n / 2) []) ≡ _ [MOD 2 ^ 32]
        rw [hval2]
        exact Nat.ModEq.add_right _ hsum2
    · rw [sum_all_go, if_neg h1]
      refine ⟨rfl, h32, ?_⟩
      have hn1 : n = 1 := by omega
      subst hn1
      simpa [sumF] using Nat.ModEq.refl (wordVal (vvs.getD 0 []))

theorem sumF_eq_sum_map : ∀ (l : List Word),
    sumF (fun i => wordVal (l.getD i [])) l.length = (l.map wordVal).sum := by
  intro l
  induction l using List.reverseRecOn with
  | nil => rfl
  | append_singleton l a ih =>
    simp only [List.length_append, List.length_singleton]
    rw [show l.length + 1 = l.length + 1 from rfl]
    simp only [sumF]
    rw [sumF_congr _ (fun i => wordVal (l.getD i [])) l.length
      (fun i hi => by rw [List.getD_append _ _ _ _ hi]), ih]
    rw [List.getD_append_right _ _ _ _ (le_refl _)]
    simp

/-- On a non-empty list of 32-bit words, `sum_all` returns a 32-bit word whose
value is the sum of all the word values modulo `2^32`. -/
theorem sum_all_spec (vs : List Word) (hne : vs ≠ [])
    (h32 : ∀ w ∈ vs, w.length = 32) :
    ∃ w, sum_all vs = some w ∧ w.length = 32
      ∧ wordVal w = (vs.map wordVal).sum % 2 ^ 32 := by
  have hpos : 0 < vs.length := List.length_pos.mpr hne
  have hloop := sum_all_loop_spec vs.length vs vs.length (le_refl _) hpos
    (le_refl _) h32
  obtain ⟨hlen, h32r, hmod⟩ := hloop
  set r := sum_all_go vs.length vs vs.length with hr
  have hrpos : 0 < r.length := by rw [hlen]; exact hpos
  refine ⟨r.getD 0 [], ?_, ?_, ?_⟩
  · rw [sum_all, sum_all_loop, ← hr, List.get?_eq_getElem?,
      List.getElem?_eq_getElem hrpos]
    simp [List.getD_eq_getElem?_getD, List.getElem?_eq_getElem hrpos]
  · exact h32r _ (mem_getD _ _ _ hrpos)
  · have hlt : wordVal (r.getD 0 []) < 2 ^ 32 :=
      wordVal_lt32 _ (h32r _ (mem_getD _ _ _ hrpos))
    have := hmod
    rw [Nat.ModEq] at this
    rw [← sumF_eq_sum_map vs, ← this]
    exact (Nat.mod_eq_of_lt hlt).symm

/-! ### The claims -/

/-- C1: `finalize` returns the standard SHA-256 digests for the empty message
and for "abc", and every digest it does return is exactly 256 bits.  The
original "for every input message" is amended to messages whose zero-run
length does not underflow, `(len + 1) % 512 ≤ 448` (see the counterexample:
a 449-bit message yields no digest at all). -/
theorem c1_digest_vectors :
    SHA256GF2.finalize ⟨[]⟩
      = some ((([0xe3b0c442, 0x98fc1c14, 0x9afbf4c8, 0x996fb924, 0x27ae41e4,
          0x649b934c, 0xa495991b, 0x7852b855].map u32_to_bit).flatten),
          ⟨padBits []⟩)
    ∧ SHA256GF2.finalize ⟨abc_bits⟩
      = some ((([0xba7816bf, 0x8f01cfea, 0x414140de, 0x5dae2223, 0xb00361a3,
          0x96177a9c, 0xb410ff61, 0xf20015ad].map u32_to_bit).flatten),
          ⟨padBits abc_bits⟩)
    ∧ ∀ msg : List Bool, (msg.length + 1) % 512 ≤ 448 →
        ∃ d e, SHA256GF2.finalize ⟨msg⟩ = some (d, e) ∧ d.length = 256 := by
  refine ⟨?_, ?_, ?_⟩
  · rw [finalize_spec [] (by norm_num)]
    rw [show finalize_vals [] = [0xe3b0c442, 0x98fc1c14, 0x9afbf4c8,
      0x996fb924, 0x27ae41e4, 0x649b934c, 0xa495991b, 0x7852b855] from by decide]
  · rw [finalize_spec abc_bits (by decide)]
    rw [show finalize_vals abc_bits = [0xba7816bf, 0x8f01cfea, 0x414140de,
      0x5dae2223, 0xb00361a3, 0x96177a9c, 0xb410ff61, 0xf20015ad] from by decide]
  · intro msg hok
    refine ⟨_, _, finalize_spec msg hok, ?_⟩
    simp [finalize_vals, length_u32_to_bit]

/-- C1 counterexample: for a 449-bit message the zero-run length
`448 - ((449 + 1) % 512)` underflows in `usize` and `finalize` produces no
digest, so "for every input message the returned digest is exactly 256 bits"
fails as stated. -/
theorem c1_counterexample :
    SHA256GF2.finalize ⟨List.replicate 449 false⟩ = none := by
  rw [SHA256GF2.finalize]
  rw [if_neg (by decide)]

/-- C1 witness: the amended totality at the empty message. -/
theorem c1_witness :
    ∃ d e, SHA256GF2.finalize ⟨[]⟩ = some (d, e) ∧ d.length = 256 :=
  c1_digest_vectors.2.2 [] (by norm_num)

/-- C2: for all working variables a..h, W[i] and K[i], the CSA/Wallace-tree
round of `sha256_compress` (two first-stage `add_csa3` collapses, two further
`add_csa3` stages, one final 2-operand `add` per output) is bit-identical to
the direct formulation T1 = h+Σ1(e)+Ch(e,f,g)+K[i]+W[i], T2 = Σ0(a)+Maj(a,b,c),
e' = d+T1, a' = T1+T2, all mod 2^32. -/
theorem c2_round_equivalence (wa wb wc wd we wf wg wh wi : Word) (ki : Nat)
    (ha : wa.length = 32) (hb : wb.length = 32) (hc : wc.length = 32)
    (hd : wd.length = 32) (he : we.length = 32) (hf : wf.length = 32)
    (hg : wg.length = 32) (hh : wh.length = 32) (hwi : wi.length = 32) :
    compress_round (wa, wb, wc, wd, we, wf, wg, wh) wi ki
      = map8 (round_direct (val8 (wa, wb, wc, wd, we, wf, wg, wh))
          (wordVal wi) ki) :=
  compress_round_spec wa wb wc wd we wf wg wh wi ki ha hb hc hd he hf hg hh hwi

/-- C2 witness: the round equivalence at a concrete state, W and K. -/
theorem c2_witness :
    compress_round (u32_to_bit 1, u32_to_bit 2, u32_to_bit 3, u32_to_bit 4,
        u32_to_bit 5, u32_to_bit 6, u32_to_bit 7, u32_to_bit 8)
        (u32_to_bit 9) 10
      = map8 (round_direct (val8 (u32_to_bit 1, u32_to_bit 2, u32_to_bit 3,
          u32_to_bit 4, u32_to_bit 5, u32_to_bit 6, u32_to_bit 7,
          u32_to_bit 8)) (wordVal (u32_to_bit 9)) 10) :=
  c2_round_equivalence _ _ _ _ _ _ _ _ _ 10 rfl rfl rfl rfl rfl rfl rfl rfl rfl

/-- C3: each of the five adder strategies — ripple, serial Kogge-Stone,
parallel Kogge-Stone, Brent-Kung and the 32-bit Han-Carlson network — returns
the big-endian word of (a+b) mod 2^32 on all 32-bit inputs. -/
theorem c3_five_adders :
    (∀ a b : Word, a.length = 32 → b.length = 32 →
      add_vanilla a b = u32_to_bit ((wordVal a + wordVal b) % 2 ^ 32))
    ∧ (∀ a b : Word, a.length = 32 → b.length = 32 →
      add_koggestone_32_bits a b
        = u32_to_bit ((wordVal a + wordVal b) % 2 ^ 32))
    ∧ (∀ a b : Word, a.length = 32 → b.length = 32 →
      add_koggestone_32_bits_prallel a b
        = u32_to_bit ((wordVal a + wordVal b) % 2 ^ 32))
    ∧ (∀ a b : Word, a.length = 32 → b.length = 32 →
      add_brentkung a b = u32_to_bit ((wordVal a + wordVal b) % 2 ^ 32))
    ∧ (∀ a b : Word, a.length = 32 → b.length = 32 →
      add_hancarlson_32_bits a b
        = u32_to_bit ((wordVal a + wordVal b) % 2 ^ 32)) :=
  ⟨fun a b ha hb => add_vanilla_spec a b ha hb,
   fun a b ha hb => add_koggestone_32_bits_spec a b ha hb,
   fun a b ha hb => add_koggestone_32_bits_prallel_spec a b ha hb,
   fun a b ha hb => add_brentkung_spec a b ha hb,
   fun a b ha hb => add_hancarlson_32_bits_spec a b ha hb⟩

/-- C3 witness: all five adders at a = 0xfedcba98, b = 0x87654321. -/
theorem c3_witness :
    add_vanilla (u32_to_bit 0xfedcba98) (u32_to_bit 0x87654321)
      = u32_to_bit ((wordVal (u32_to_bit 0xfedcba98)
          + wordVal (u32_to_bit 0x87654321)) % 2 ^ 32)
    ∧ add_koggestone_32_bits (u32_to_bit 0xfedcba98) (u32_to_bit 0x87654321)
      = u32_to_bit ((wordVal (u32_to_bit 0xfedcba98)
          + wordVal (u32_to_bit 0x87654321)) % 2 ^ 32)
    ∧ add_koggestone_32_bits_prallel (u32_to_bit 0xfedcba98)
        (u32_to_bit 0x87654321)
      = u32_to_bit ((wordVal (u32_to_bit 0xfedcba98)
          + wordVal (u32_to_bit 0x87654321)) % 2 ^ 32)
    ∧ add_brentkung (u32_to_bit 0xfedcba98) (u32_to_bit 0x87654321)
      = u32_to_bit ((wordVal (u32_to_bit 0xfedcba98)
          + wordVal (u32_to_bit 0x87654321)) % 2 ^ 32)
    ∧ add_hancarlson_32_bits (u32_to_bit 0xfedcba98) (u32_to_bit 0x87654321)
      = u32_to_bit ((wordVal (u32_to_bit 0xfedcba98)
          + wordVal (u32_to_bit 0x87654321)) % 2 ^ 32) :=
  ⟨c3_five_adders.1 _ _ rfl rfl, c3_five_adders.2.1 _ _ rfl rfl,
   c3_five_adders.2.2.1 _ _ rfl rfl, c3_five_adders.2.2.2.1 _ _ rfl rfl,
   c3_five_adders.2.2.2.2 _ _ rfl rfl⟩

/-- C4: padding is correct for 0- and 447-bit messages (finalize pads each to
exactly one 512-bit block of the spec's form and returns a digest), but for a
449-bit message (449 + 1) % 512 = 450 > 448, the zero-run length
`448 - ((len + 1) % 512)` underflows in `usize`, and `finalize` produces no
padded buffer at all (modelled `none`): the claim's "every input of length
0, 447 or 449 pads correctly" fails at 449 because of this code bug. -/
theorem c4_padding_boundary :
    (padBits []).length = 512
    ∧ (padBits (List.replicate 447 false)).length = 512
    ∧ (∃ d, SHA256GF2.finalize ⟨[]⟩ = some (d, ⟨padBits []⟩))
    ∧ (∃ d, SHA256GF2.finalize ⟨List.replicate 447 false⟩
        = some (d, ⟨padBits (List.replicate 447 false)⟩))
    ∧ 448 < ((List.replicate 449 false : List Bool).length + 1) % 512
    ∧ SHA256GF2.finalize ⟨List.replicate 449 false⟩ = none := by
  refine ⟨by decide, by decide, ⟨_, finalize_spec [] (by norm_num)⟩,
    ⟨_, finalize_spec _ (by simp)⟩, by simp, ?_⟩
  rw [SHA256GF2.finalize]
  rw [if_neg (by decide)]

/-- C5: `add_csa3` returns sum = a ⊕ b ⊕ c, carry = ((a∧b) ⊕ (a∧c) ⊕ (b∧c))
shifted left one position (its least-significant position the zero constant,
the top majority bit dropped to 32 bits), and a subsequent 2-operand `add` of
the pair equals (a+b+c) mod 2^32. -/
theorem c5_add_csa3 (a b c : Word) (ha : a.length = 32) (hb : b.length = 32)
    (hc : c.length = 32) :
    (add_csa3 a b c).1 = u32_to_bit ((wordVal a ^^^ wordVal b) ^^^ wordVal c)
    ∧ (add_csa3 a b c).2
      = u32_to_bit ((((wordVal a &&& wordVal b) ^^^ (wordVal a &&& wordVal c))
          ^^^ (wordVal b &&& wordVal c)) <<< 1)
    ∧ add (add_csa3 a b c).1 (add_csa3 a b c).2
      = u32_to_bit ((wordVal a + wordVal b + wordVal c) % 2 ^ 32) := by
  refine ⟨add_csa3_fst a b c ha hb hc, ?_, ?_⟩
  · rw [add_csa3_snd a b c ha hb hc]
    refine congrArg u32_to_bit ?_
    rw [Nat.shiftLeft_eq, pow_one,
      show ((wordVal a &&& wordVal b) ^^^ (wordVal a &&& wordVal c))
          ^^^ (wordVal b &&& wordVal c)
        = ((wordVal a &&& wordVal b) ^^^ (wordVal b &&& wordVal c))
          ^^^ (wordVal a &&& wordVal c) from by
        rw [Nat.xor_assoc, Nat.xor_comm (wordVal a &&& wordVal c),
          ← Nat.xor_assoc]]
    omega
  · rw [add_spec _ _ (add_csa3_fst_length a b c) (add_csa3_snd_length a b c)]
    exact congrArg u32_to_bit (add_csa3_val a b c ha hb hc)

/-- C5 witness: the carry-save triple at a = 0x12345678, b = 0x9abcdef0,
c = 0x0f1e2d3c. -/
theorem c5_witness :
    (add_csa3 (u32_to_bit 0x12345678) (u32_to_bit 0x9abcdef0)
        (u32_to_bit 0x0f1e2d3c)).1
      = u32_to_bit ((wordVal (u32_to_bit 0x12345678)
          ^^^ wordVal (u32_to_bit 0x9abcdef0))
          ^^^ wordVal (u32_to_bit 0x0f1e2d3c))
    ∧ (add_csa3 (u32_to_bit 0x12345678) (u32_to_bit 0x9abcdef0)
        (u32_to_bit 0x0f1e2d3c)).2
      = u32_to_bit ((((wordVal (u32_to_bit 0x12345678)
            &&& wordVal (u32_to_bit 0x9abcdef0))
          ^^^ (wordVal (u32_to_bit 0x12345678)
            &&& wordVal (u32_to_bit 0x0f1e2d3c)))
          ^^^ (wordVal (u32_to_bit 0x9abcdef0)
            &&& wordVal (u32_to_bit 0x0f1e2d3c))) <<< 1)
    ∧ add (add_csa3 (u32_to_bit 0x12345678) (u32_to_bit 0x9abcdef0)
          (u32_to_bit 0x0f1e2d3c)).1
        (add_csa3 (u32_to_bit 0x12345678) (u32_to_bit 0x9abcdef0)
          (u32_to_bit 0x0f1e2d3c)).2
      = u32_to_bit ((wordVal (u32_to_bit 0x12345678)
          + wordVal (u32_to_bit 0x9abcdef0)
          + wordVal (u32_to_bit 0x0f1e2d3c)) % 2 ^ 32) :=
  c5_add_csa3 _ _ _ rfl rfl rfl

/-- C6: the block-chained Han-Carlson adder `add_hancarlson` violates the
adder contract: `han_carlson_adder_4_bits` omits the block carry-in from its
even-index carries, so 0x0000001F + 0x00000001 returns 0x00000000 instead of
0x00000020. -/
theorem c6_hancarlson_bug :
    add_hancarlson (u32_to_bit 0x1F) (u32_to_bit 0x01)
      ≠ u32_to_bit ((wordVal (u32_to_bit 0x1F)
          + wordVal (u32_to_bit 0x01)) % 2 ^ 32)
    ∧ add_hancarlson (u32_to_bit 0x1F) (u32_to_bit 0x01) = u32_to_bit 0 :=
  ⟨by decide, by decide⟩

/-- C7: reading a 32-entry word big-endian, `rotate_right` encodes the
standard rotation (x >> k) | (x << (32-k)) truncated to 32 bits, and
`shift_right` the logical shift x >> k with top k positions zero, for every
k < 32. -/
theorem c7_rot_shift_semantics (w : Word) (k : Nat) (hw : w.length = 32)
    (hk : k < 32) :
    rotate_right w k = u32_to_bit (rotr32 (wordVal w) k)
    ∧ shift_right w k = u32_to_bit (wordVal w >>> k) :=
  ⟨rotate_right_spec w k hw hk, shift_right_spec w k hw hk⟩

/-- C7 witness: rotation and shift of 0xABCD1234 by 7. -/
theorem c7_witness :
    rotate_right (u32_to_bit 0xABCD1234) 7
      = u32_to_bit (rotr32 (wordVal (u32_to_bit 0xABCD1234)) 7)
    ∧ shift_right (u32_to_bit 0xABCD1234) 7
      = u32_to_bit (wordVal (u32_to_bit 0xABCD1234) >>> 7) :=
  c7_rot_shift_semantics _ 7 rfl (by norm_num)

/-- C8: `rotate_right` is a pure reindexing of the word and allocates zero
gates (the output is a permutation of the input wires), but the reindex is
new[i] = word[(i + (32 - k)) mod 32]; the claimed formula
new[i] = word[(i + k) mod 32] rotates the wrong way (see the counterexample
theorem). -/
theorem c8_rotate_reindex (w : Word) (k : Nat) (hw : w.length = 32)
    (hk : k ≤ 31) :
    (∀ i, i < 32 → (rotate_right w k).getD i false
        = w.getD ((i + (32 - k)) % 32) false)
    ∧ (rotate_right w k).Perm w := by
  constructor
  · intro i hi
    simp only [rotate_right, hw]
    have hdlen : (w.drop (32 - k)).length = k := by
      simp [hw]
      omega
    by_cases hik : i < k
    · rw [List.getD_append _ _ _ _ (by rw [hdlen]; exact hik), getD_drop,
        show (i + (32 - k)) % 32 = 32 - k + i from by omega]
    · rw [List.getD_append_right _ _ _ _ (by rw [hdlen]; omega), hdlen,
        getD_take _ _ _ _ (by omega),
        show (i + (32 - k)) % 32 = i - k from by omega]
  · simp only [rotate_right, hw]
    exact List.perm_append_comm.trans (by rw [List.take_append_drop])

/-- C8 counterexample: with only the most-significant bit set and k = 1, the
claimed reindex new[i] = word[(i + 1) mod 32] does not describe
`rotate_right`. -/
theorem c8_counterexample :
    ¬ ∀ i, i < 32 → (rotate_right (u32_to_bit 0x80000000) 1).getD i false
        = (u32_to_bit 0x80000000).getD ((i + 1) % 32) false := by decide

/-- C8 witness: the corrected reindex at w = 0xABCD1234, k = 7. -/
theorem c8_witness :
    (∀ i, i < 32 → (rotate_right (u32_to_bit 0xABCD1234) 7).getD i false
        = (u32_to_bit 0xABCD1234).getD ((i + (32 - 7)) % 32) false)
    ∧ (rotate_right (u32_to_bit 0xABCD1234) 7).Perm (u32_to_bit 0xABCD1234) :=
  c8_rotate_reindex _ 7 rfl (by norm_num)

/-- C9: `finalize` pushes the padding onto the engine's own buffer: the
engine it returns carries the padded message, not the bits supplied via
`update`, and a second `finalize` on that engine pads and hashes the
already-padded buffer, producing a different digest than the first. -/
theorem c9_finalize_mutates_buffer :
    (∀ msg : List Bool, (msg.length + 1) % 512 ≤ 448 →
      ∃ d, SHA256GF2.finalize ⟨msg⟩ = some (d, ⟨padBits msg⟩)
        ∧ padBits msg ≠ msg)
    ∧ ∃ d1 e1 d2 e2, SHA256GF2.finalize ⟨[]⟩ = some (d1, e1)
        ∧ SHA256GF2.finalize e1 = some (d2, e2)
        ∧ e1.data = padBits [] ∧ d2 ≠ d1 := by
  constructor
  · intro msg hok
    refine ⟨_, finalize_spec msg hok, ?_⟩
    intro heq
    have hlen := congrArg List.length heq
    simp only [padBits, List.length_append, List.length_cons,
      List.length_replicate, length_u64_to_bit, List.length_nil] at hlen
    omega
  · refine ⟨_, _, _, _, finalize_spec [] (by norm_num),
      finalize_spec (padBits []) (by decide), rfl, by decide⟩

/-- C9 witness: the buffer mutation at the empty message. -/
theorem c9_witness :
    ∃ d, SHA256GF2.finalize ⟨[]⟩ = some (d, ⟨padBits []⟩)
      ∧ padBits [] ≠ ([] : List Bool) :=
  c9_finalize_mutates_buffer.1 [] (by norm_num)

/-- C10: on every non-empty list of 32-bit words `sum_all` returns their sum
mod 2^32; a one-element list is returned unchanged; on the empty list the
final `vvs[0]` read is out of bounds and no zero word is returned (modelled
`none`). -/
theorem c10_sum_all (vs : List Word) (hne : vs ≠ [])
    (h32 : ∀ w ∈ vs, w.length = 32) :
    (∃ w, sum_all vs = some w ∧ w.length = 32
      ∧ wordVal w = (vs.map wordVal).sum % 2 ^ 32)
    ∧ (∀ w : Word, sum_all [w] = some w)
    ∧ sum_all ([] : List Word) = none :=
  ⟨sum_all_spec vs hne h32, fun w => rfl, rfl⟩

/-- C10 witness: `sum_all` on [5, 7, 11] as 32-bit words. -/
theorem c10_witness :
    ∃ w, sum_all [u32_to_bit 5, u32_to_bit 7, u32_to_bit 11] = some w
      ∧ w.length = 32
      ∧ wordVal w
        = ([u32_to_bit 5, u32_to_bit 7, u32_to_bit 11].map wordVal).sum
          % 2 ^ 32 :=
  (c10_sum_all [u32_to_bit 5, u32_to_bit 7, u32_to_bit 11] (by simp)
    (by decide)).1

end Gf2
